import Mathlib

/-!
Shallow embedding of the core of the `aosen/search` engine (`search.go`)
and verification of the frozen claims about it.

Modelling conventions:
* Go `uint64` document ids and Go `int` array indices are modelled as `Nat`
  (no claim depends on wrap-around of these quantities).
* Go `int` byte offsets (token locations) and the proximity values
  (which use `-1` as a sentinel) are modelled as `Int`.
* Go `float32`/`float64` arithmetic is modelled exactly over `ℚ`; the single
  transcendental operation `math.Log2` is abstracted as a function parameter
  `lg : ℚ → ℚ`, so every theorem about BM25 holds for an arbitrary
  interpretation of the logarithm (rounding of IEEE arithmetic is not part of
  the embedding).
* Go maps (`map[string]*KeywordIndices`, `map[uint64]float32`,
  `map[uint64]interface{}`) are modelled as association lists with
  replace-first/append-on-miss update, which matches map semantics because the
  code only ever creates keys through this update.
* The per-shard locks serialize the operations; a state of an `Indexer` or
  `Ranker` is therefore the fold of the executed operations.
-/

/-- Association-list lookup, modelling a Go map read (`v, found := m[k]`). -/
def alistGet {α β : Type} [DecidableEq α] : List (α × β) → α → Option β
  | [], _ => none
  | (k, v) :: rest, key => if key = k then some v else alistGet rest key

/-- Association-list update, modelling a Go map write (`m[k] = v`). -/
def alistPut {α β : Type} [DecidableEq α] : List (α × β) → α → β → List (α × β)
  | [], key, val => [(key, val)]
  | (k, v) :: rest, key, val =>
      if key = k then (key, val) :: rest else (k, v) :: alistPut rest key val

/-- Sum of the values stored in an association list. -/
def alistSum (l : List (Nat × ℚ)) : ℚ := (l.map Prod.snd).sum

/-- The three index payload modes (`DocIdsIndex`, `FrequenciesIndex`,
`LocationsIndex` constants of `search.go`). -/
inductive IndexType : Type where
  | DocIdsIndex : IndexType
  | FrequenciesIndex : IndexType
  | LocationsIndex : IndexType
deriving DecidableEq, Repr

/-- `search.KeywordIndex`: one (search key, document) pair handed to the
indexer. -/
structure KeywordIndex : Type where
  Text : String
  Frequency : ℚ
  Starts : List Int
deriving DecidableEq, Repr

/-- `search.DocumentIndex`: a document to be merged into the inverted table. -/
structure DocumentIndex : Type where
  DocId : Nat
  TokenLength : ℚ
  Keywords : List KeywordIndex
deriving DecidableEq, Repr

/-- `search.KeywordIndices`: one row of the inverted table; three parallel
arrays sorted by ascending document id. -/
structure KeywordIndices : Type where
  docIds : List Nat
  frequencies : List ℚ
  locations : List (List Int)
deriving DecidableEq, Repr

instance : Inhabited KeywordIndices := ⟨⟨[], [], []⟩⟩

/-- `search.BM25Parameters` (defaults K1 = 2.0, B = 0.75). The engine always
supplies a non-nil parameter record, so it is modelled as non-optional. -/
structure BM25Parameters : Type where
  K1 : ℚ
  B : ℚ
deriving DecidableEq, Repr

/-- `search.IndexerInitOptions`. -/
structure IndexerInitOptions : Type where
  IndexType : IndexType
  BM25Parameters : BM25Parameters
deriving DecidableEq, Repr

/-- The mutable state of `search.Indexer` (the lock and the `initialized`
flag are not part of the sequential model). -/
structure Indexer : Type where
  table : List (String × KeywordIndices)
  initOptions : IndexerInitOptions
  numDocuments : Nat
  totalTokenLength : ℚ
  docTokenLengths : List (Nat × ℚ)
deriving Repr

/-- `Indexer.Init`: fresh indexer state (all counters zero, empty tables). -/
def Indexer.Init (options : IndexerInitOptions) : Indexer :=
  { table := []
    initOptions := options
    numDocuments := 0
    totalTokenLength := 0
    docTokenLengths := [] }

/-- Fuel-based form of the binary-chop loop inside `Indexer.searchIndex`
(the `for end-start > 1` loop): one unit of fuel per iteration. The window
`e - start` shrinks by at least one per iteration, so any fuel
`≥ e - start` makes the fuel guard unreachable (`searchLoop` below supplies
exactly `e - start`); structural recursion keeps the definition kernel-reducible. -/
def searchLoopAux (ds : List Nat) (docId : Nat) : Nat → Nat → Nat → Nat × Bool
  | _, e, 0 => (e, false)
  | start, e, fuel + 1 =>
      if 1 < e - start then
        let middle := (start + e) / 2
        if docId = ds.getD middle 0 then (middle, true)
        else if ds.getD middle 0 < docId then searchLoopAux ds docId middle e fuel
        else searchLoopAux ds docId start middle fuel
      else (e, false)

/-- The binary-chop loop inside `Indexer.searchIndex`. Invariant at every
call site: `docIds[start] < docId < docIds[e]`. -/
def searchLoop (ds : List Nat) (docId : Nat) (start e : Nat) : Nat × Bool :=
  searchLoopAux ds docId start e (e - start)

/-- `Indexer.searchIndex(indices, start, end, docId)`: binary search for
`docId` inside `indices.docIds[start..end]`; returns the found-or-insertion
position and a found flag. The Go call sites pass `start = 0` and
`end = length - 1`; when the row is empty Go passes `end = -1` but the very
first length test returns before `end` is ever read, so modelling the `end`
argument as `Nat` (with `0 - 1 = 0`) is observationally identical. -/
def searchIndexGo (ds : List Nat) (start e : Nat) (docId : Nat) : Nat × Bool :=
  if ds.length = start then (start, false)
  else if docId < ds.getD start 0 then (start, false)
  else if docId = ds.getD start 0 then (start, true)
  else if ds.getD e 0 < docId then (e + 1, false)
  else if docId = ds.getD e 0 then (e, true)
  else searchLoop ds docId start e

/-- Insertion of one element at a given position, modelling the Go idiom
`append` + `copy` + overwrite used by `AddDocument`. -/
def insertAt {α : Type} (l : List α) (p : Nat) (x : α) : List α :=
  l.take p ++ x :: l.drop p

/-- Processing of a single `KeywordIndex` inside `Indexer.AddDocument`:
insert or overwrite the posting for `docId` in the row of `kw.Text`.
Returns the updated table and the updated `docIdIsNew` flag. -/
def addDocumentKeyword (mode : IndexType) (docId : Nat)
    (st : List (String × KeywordIndices) × Bool) (kw : KeywordIndex) :
    List (String × KeywordIndices) × Bool :=
  let (table, docIdIsNew) := st
  match alistGet table kw.Text with
  | none =>
      let ti : KeywordIndices :=
        { docIds := [docId]
          frequencies := match mode with
            | .FrequenciesIndex => [kw.Frequency]
            | _ => []
          locations := match mode with
            | .LocationsIndex => [kw.Starts]
            | _ => [] }
      (alistPut table kw.Text ti, docIdIsNew)
  | some indices =>
      let pf := searchIndexGo indices.docIds 0 (indices.docIds.length - 1) docId
      if pf.2 then
        let indices' : KeywordIndices :=
          { indices with
            locations := if mode = .LocationsIndex then
                indices.locations.set pf.1 kw.Starts else indices.locations
            frequencies := if mode = .FrequenciesIndex then
                indices.frequencies.set pf.1 kw.Frequency else indices.frequencies }
        (alistPut table kw.Text indices', false)
      else
        let indices' : KeywordIndices :=
          { indices with
            locations := if mode = .LocationsIndex then
                insertAt indices.locations pf.1 kw.Starts else indices.locations
            frequencies := if mode = .FrequenciesIndex then
                insertAt indices.frequencies pf.1 kw.Frequency else indices.frequencies
            docIds := insertAt indices.docIds pf.1 docId }
        (alistPut table kw.Text indices', docIdIsNew)

/-- The token-length accounting prologue of `Indexer.AddDocument`
(`if document.TokenLength != 0 { ... }`): store the new per-document length
and shift `totalTokenLength` by the difference with the previous one. -/
def addDocumentLengths (indexer : Indexer) (document : DocumentIndex) : Indexer :=
  if document.TokenLength ≠ 0 then
    match alistGet indexer.docTokenLengths document.DocId with
    | some originalLength =>
        { indexer with
          docTokenLengths :=
            alistPut indexer.docTokenLengths document.DocId document.TokenLength
          totalTokenLength :=
            indexer.totalTokenLength + (document.TokenLength - originalLength) }
    | none =>
        { indexer with
          docTokenLengths :=
            alistPut indexer.docTokenLengths document.DocId document.TokenLength
          totalTokenLength := indexer.totalTokenLength + document.TokenLength }
  else indexer

/-- `Indexer.AddDocument`: update the token-length accounting, merge every
keyword of the document into the inverted table, and bump `numDocuments`
when the doc id was found in no touched posting list. -/
def Indexer.AddDocument (indexer : Indexer) (document : DocumentIndex) : Indexer :=
  let indexer1 := addDocumentLengths indexer document
  let tb := document.Keywords.foldl
    (addDocumentKeyword indexer1.initOptions.IndexType document.DocId)
    (indexer1.table, true)
  { indexer1 with
    table := tb.1
    numDocuments := if tb.2 then indexer1.numDocuments + 1 else indexer1.numDocuments }

/-- `search.AbsInt`. -/
def AbsInt (a : Int) : Int := if a < 0 then -a else a

/-- `search.MinInt`. -/
def MinInt (a b : Int) : Int := if a < b then a else b

/-- Fuel-based form of the two-pointer advance loop of
`computeTokenProximity`; the loop body needs `iNext + 1 < length`, so fuel
`length - iNext` (supplied by `advanceINext` below) is always sufficient. -/
def advanceINextAux (nextLocations : List Int) (currentLocation : Int) :
    Nat → Nat → Nat
  | iNext, 0 => iNext
  | iNext, fuel + 1 =>
      if iNext + 1 < nextLocations.length ∧
          nextLocations.getD (iNext + 1) 0 < currentLocation then
        advanceINextAux nextLocations currentLocation (iNext + 1) fuel
      else iNext

/-- The two-pointer advance loop of `computeTokenProximity`:
`for iNext+1 < len(nextLocations) && nextLocations[iNext+1] < currentLocation`. -/
def advanceINext (nextLocations : List Int) (currentLocation : Int) (iNext : Nat) : Nat :=
  advanceINextAux nextLocations currentLocation iNext (nextLocations.length - iNext)

/-- The `update` closure of `computeTokenProximity`: relax the DP value of
destination `t` via source `f`; the state is the pair
(nextMinValues, current path row). -/
def proximityUpdate (tokLen : Int)
    (currentLocations currentMinValues nextLocations : List Int)
    (st : List Int × List Nat) (f t : Nat) : List Int × List Nat :=
  if t < nextLocations.length then
    let value := currentMinValues.getD f 0 +
      AbsInt (nextLocations.getD t 0 - currentLocations.getD f 0 - tokLen)
    if st.1.getD t 0 = -1 ∨ value < st.1.getD t 0 then
      (st.1.set t value, st.2.set t f)
    else st
  else st

/-- The inner `for iCurrent, currentLocation := range currentLocations` loop of
one DP layer of `computeTokenProximity`. -/
def layerLoop (tokLen : Int) (currentLocations currentMinValues nextLocations : List Int) :
    List (Nat × Int) → Nat → List Int × List Nat → List Int × List Nat
  | [], _, st => st
  | (iCurrent, currentLocation) :: rest, iNext, st =>
      if currentMinValues.getD iCurrent 0 = -1 then
        layerLoop tokLen currentLocations currentMinValues nextLocations rest iNext st
      else
        let iNext' := advanceINext nextLocations currentLocation iNext
        let st1 := proximityUpdate tokLen currentLocations currentMinValues nextLocations
          st iCurrent iNext'
        let st2 := proximityUpdate tokLen currentLocations currentMinValues nextLocations
          st1 iCurrent (iNext' + 1)
        layerLoop tokLen currentLocations currentMinValues nextLocations rest iNext' st2

/-- One full DP layer transition of `computeTokenProximity` (fresh
`nextMinValues` filled with `-1`, fresh path row filled with `0`, `iNext`
reset to `0`). -/
def layerStep (tokLen : Int)
    (currentLocations currentMinValues nextLocations : List Int) :
    List Int × List Nat :=
  layerLoop tokLen currentLocations currentMinValues nextLocations
    currentLocations.enum 0
    (nextLocations.map (fun _ => (-1 : Int)), nextLocations.map (fun _ => (0 : Nat)))

/-- The final minimum scan of `computeTokenProximity`: smallest defined DP
value of the last layer together with its (first-found) index. -/
def proximityMinFold (currentMinValues : List Int) : Int × Nat :=
  currentMinValues.enum.foldl
    (fun acc iv =>
      if iv.2 = -1 then acc
      else if acc.1 = -1 ∨ iv.2 < acc.1 then (iv.2, iv.1) else acc)
    (-1, 0)

/-- The per-token location array used by `computeTokenProximity`:
`L_i = table[i].locations[indexPointers[i]]`. -/
def tokenLocs (table : List KeywordIndices) (indexPointers : List Nat) (i : Nat) :
    List Int :=
  ((table.getD i default).locations).getD (indexPointers.getD i 0) []

/-- The backwards path-reconstruction loop of `computeTokenProximity`:
`reconstructLoop locAt path cursor i` returns `tokenLocations[0..i]` where
`cursor` is the chosen index inside layer `i` and `path.getD (j-1)` is the
path row written while processing layer `j`. -/
def reconstructLoop (locAt : Nat → List Int) (path : List (List Nat)) :
    Nat → Nat → List Int
  | cursor, 0 => [(locAt 0).getD cursor 0]
  | cursor, i + 1 =>
      let c' := (path.getD i []).getD cursor 0
      reconstructLoop locAt path c' i ++ [(locAt (i + 1)).getD cursor 0]

/-- `search.computeTokenProximity(table, indexPointers, tokens)`: the
layer-by-layer DP over the per-document location arrays
`table[i].locations[indexPointers[i]]`, restricted to two candidate
destinations per transition, followed by the minimum scan and the path
reconstruction. Token byte lengths enter as `len(tokens[i-1])`, i.e. the
UTF-8 byte size. -/
def computeTokenProximity (table : List KeywordIndices) (indexPointers : List Nat)
    (tokens : List String) : Int × List Int :=
  let locAt : Nat → List Int := tokenLocs table indexPointers
  let n := tokens.length
  let dp := (List.range' 1 (n - 1)).foldl
    (fun (st : List Int × List Int × List (List Nat)) i =>
      let nextLocations := locAt i
      let tokLen : Int := ((tokens.getD (i - 1) "").utf8ByteSize : Int)
      let nr := layerStep tokLen st.1 st.2.1 nextLocations
      (nextLocations, nr.1, st.2.2 ++ [nr.2]))
    (locAt 0, (locAt 0).map (fun _ => (0 : Int)), [])
  let mc := proximityMinFold dp.2.1
  (mc.1, if n = 0 then [] else reconstructLoop locAt dp.2.2 mc.2 (n - 1))

/-- `search.IndexedDocument`: one result row of `Indexer.Lookup`. Fields not
computed in the active mode keep their Go zero values. -/
structure IndexedDocument : Type where
  DocId : Nat
  BM25 : ℚ
  TokenProximity : Int
  TokenSnippetLocations : List Int
  TokenLocations : List (List Int)
deriving DecidableEq, Repr

instance : Inhabited IndexedDocument := ⟨⟨0, 0, 0, [], []⟩⟩

/-- Outcome of the inner `for iTable := 1; ...` scan of `Indexer.Lookup` for
one candidate doc id: all keys matched (with the updated cursor list), the
whole driving scan must terminate (`position == 0` case), or just this
candidate is skipped (with the cursors updated up to the failing key). -/
inductive ScanResult : Type where
  | stop : ScanResult
  | noMatch : List Nat → ScanResult
  | found : List Nat → ScanResult
deriving DecidableEq, Repr

/-- The inner scan of `Indexer.Lookup` over the non-driving keys
(`table[1..]` with their cursors), looking for `base` in each, updating the
cursors exactly as the Go loop mutates `indexPointers`. -/
def innerScan (tables : List KeywordIndices) (ptrs : List Nat) (base : Nat) :
    ScanResult :=
  match tables, ptrs with
  | [], _ => .found []
  | _, [] => .found []
  | t :: ts, p :: ps =>
      let pf := searchIndexGo t.docIds 0 p base
      if pf.2 then
        match innerScan ts ps base with
        | .stop => .stop
        | .noMatch ps' => .noMatch (pf.1 :: ps')
        | .found ps' => .found (pf.1 :: ps')
      else if pf.1 = 0 then .stop
      else .noMatch ((pf.1 - 1) :: ps)

/-- The per-query context that `Indexer.Lookup` computes before its driving
scan: the resolved posting-list rows in search-key order (`tokens ++ labels`),
the BM25 inputs, and the optional doc-id restriction set.  `lg` models
`math.Log2`. -/
structure LookupCtx : Type where
  mode : IndexType
  bm25 : BM25Parameters
  lg : ℚ → ℚ
  tokens : List String
  t0 : KeywordIndices
  rest : List KeywordIndices
  docTokenLengths : List (Nat × ℚ)
  numDocuments : Nat
  avgDocLength : ℚ
  restriction : Option (Nat → Bool)

/-- All resolved posting-list rows of a lookup, in search-key order. -/
def LookupCtx.table (ctx : LookupCtx) : List KeywordIndices := ctx.t0 :: ctx.rest

/-- One BM25 contribution of `Indexer.Lookup` (the body of the
`for i, t := range table[:len(tokens)]` loop): zero unless
`len(t.docIds) > 0 && frequency > 0 && avgDocLength != 0` (the Go code also
requires `BM25Parameters != nil`, which the model keeps always true). -/
def bm25Term (ctx : LookupCtx) (dl : ℚ) (t : KeywordIndices) (ptr : Nat) : ℚ :=
  let frequency : ℚ :=
    if ctx.mode = .LocationsIndex then ((t.locations.getD ptr []).length : ℚ)
    else t.frequencies.getD ptr 0
  if 0 < t.docIds.length ∧ 0 < frequency ∧ ctx.avgDocLength ≠ 0 then
    let idf := ctx.lg ((ctx.numDocuments : ℚ) / (t.docIds.length : ℚ) + 1)
    idf * frequency * (ctx.bm25.K1 + 1) /
      (frequency + ctx.bm25.K1 *
        (1 - ctx.bm25.B + ctx.bm25.B * dl / ctx.avgDocLength))
  else 0

/-- The accumulated BM25 of one matched document (`bm25 += ...` loop). -/
def bm25Of (ctx : LookupCtx) (dl : ℚ) (pairs : List (KeywordIndices × Nat)) : ℚ :=
  pairs.foldl (fun acc tp => acc + bm25Term ctx dl tp.1 tp.2) 0

/-- Count of token keys whose location array at the current cursor is
non-empty (`numTokensWithLocations` in `Indexer.Lookup`). -/
def numTokensWithLocations (tables : List KeywordIndices) (ptrs : List Nat) : Nat :=
  ((tables.zip ptrs).filter
    (fun tp => 0 < (tp.1.locations.getD tp.2 []).length)).length

/-- The Go doc-id restriction test: skip `base` when a restriction set is
present and does not contain it. -/
def restrictionOk (restriction : Option (Nat → Bool)) (base : Nat) : Bool :=
  match restriction with
  | none => true
  | some s => s base

/-- Construction of the `IndexedDocument` for a fully matched candidate in
`Indexer.Lookup` (proximity and raw locations in Locations mode, BM25 in
Frequencies or Locations mode). `allPtrs` is the full cursor list
`indexPointers`, headed by the driving cursor. -/
def buildFullDoc (ctx : LookupCtx) (base : Nat) (allPtrs : List Nat) :
    IndexedDocument :=
  let tokensTables := ctx.table.take ctx.tokens.length
  let prox :=
    if ctx.mode = .LocationsIndex then
      computeTokenProximity tokensTables allPtrs ctx.tokens
    else (0, [])
  let toklocs :=
    if ctx.mode = .LocationsIndex then
      (tokensTables.zip allPtrs).map (fun tp => tp.1.locations.getD tp.2 [])
    else []
  let bm :=
    if ctx.mode = .LocationsIndex ∨ ctx.mode = .FrequenciesIndex then
      bm25Of ctx ((alistGet ctx.docTokenLengths base).getD 0)
        (tokensTables.zip allPtrs)
    else 0
  { DocId := base
    BM25 := bm
    TokenProximity := if ctx.mode = .LocationsIndex then prox.1 else 0
    TokenSnippetLocations := if ctx.mode = .LocationsIndex then prox.2 else []
    TokenLocations := toklocs }

/-- The degenerate result row emitted when, in Locations mode, some token key
has an empty location array at its cursor: only `DocId` is set and the
driving scan is aborted. -/
def bareDoc (base : Nat) : IndexedDocument :=
  { DocId := base, BM25 := 0, TokenProximity := 0,
    TokenSnippetLocations := [], TokenLocations := [] }

/-- The body of one driving iteration of `Indexer.Lookup` at driving cursor
`p0`; `cont` continues the scan with the (possibly updated) inner cursors,
and is invoked with the next driving cursor by `lookupLoop`. -/
def lookupStep (ctx : LookupCtx) (p0 : Nat) (ptrs : List Nat)
    (cont : List Nat → List IndexedDocument) : List IndexedDocument :=
  let base := ctx.t0.docIds.getD p0 0
  if restrictionOk ctx.restriction base then
    match innerScan ctx.rest ptrs base with
    | .stop => []
    | .noMatch ptrs' => cont ptrs'
    | .found ptrs' =>
        let allPtrs := p0 :: ptrs'
        if ctx.mode = .LocationsIndex ∧
            numTokensWithLocations (ctx.table.take ctx.tokens.length) allPtrs
              ≠ ctx.tokens.length then
          [bareDoc base]
        else
          buildFullDoc ctx base allPtrs :: cont ptrs'
  else cont ptrs

/-- The driving scan of `Indexer.Lookup` (`for ; indexPointers[0] >= 0;
indexPointers[0]--`), walking the first key's posting list from its largest
doc id downwards. -/
def lookupLoop (ctx : LookupCtx) : Nat → List Nat → List IndexedDocument
  | 0, ptrs => lookupStep ctx 0 ptrs (fun _ => [])
  | p0 + 1, ptrs => lookupStep ctx (p0 + 1) ptrs (fun ptrs' => lookupLoop ctx p0 ptrs')

/-- Resolution of the search keys against the inverted table; `none` as soon
as one key is absent (the Go code returns an empty result in that case). -/
def collectTables (table : List (String × KeywordIndices)) :
    List String → Option (List KeywordIndices)
  | [] => some []
  | k :: ks =>
      match alistGet table k with
      | none => none
      | some t => (collectTables table ks).map (t :: ·)

/-- `Indexer.Lookup(tokens, labels, docIds)`: resolve `tokens ++ labels`
against the inverted table and run the descending merge-intersection,
building an `IndexedDocument` per match. `lg` models `math.Log2`. When the
driving row is empty the Go driving loop starts at `indexPointers[0] = -1`
and never executes, which the model expresses by the explicit emptiness
test. -/
def Indexer.Lookup (indexer : Indexer) (lg : ℚ → ℚ)
    (tokens labels : List String) (docIds : Option (Nat → Bool)) :
    List IndexedDocument :=
  if indexer.numDocuments = 0 then []
  else
    match collectTables indexer.table (tokens ++ labels) with
    | none => []
    | some tables =>
        match tables with
        | [] => []
        | t0 :: rest =>
            let ctx : LookupCtx :=
              { mode := indexer.initOptions.IndexType
                bm25 := indexer.initOptions.BM25Parameters
                lg := lg
                tokens := tokens
                t0 := t0
                rest := rest
                docTokenLengths := indexer.docTokenLengths
                numDocuments := indexer.numDocuments
                avgDocLength :=
                  indexer.totalTokenLength / (indexer.numDocuments : ℚ)
                restriction := docIds }
            if t0.docIds.length = 0 then []
            else
              lookupLoop ctx (t0.docIds.length - 1)
                (rest.map (fun t => t.docIds.length - 1))

/-- `search.ScoredDocument`: one ranked result row. -/
structure ScoredDocument : Type where
  DocId : Nat
  Scores : List ℚ
  TokenSnippetLocations : List Int
  TokenLocations : List (List Int)
deriving DecidableEq, Repr

/-- `search.RankOptions`; the `ScoringCriteria` interface value is modelled
as its `Score` method, receiving `none` when the ranker holds no fields for
the document (Go passes the map's nil zero value). Offsets stay Go `int`s. -/
structure RankOptions (α : Type) : Type where
  ScoringCriteria : IndexedDocument → Option α → List ℚ
  ReverseOrder : Bool
  OutputOffset : Int
  MaxOutputs : Int

/-- The state of `search.Ranker`: the doc-id → scoring-fields side table
(`α` is the caller's opaque fields type). -/
structure Ranker (α : Type) : Type where
  fields : List (Nat × α)

/-- `ScoredDocuments.Less(i, j)` of `search.go`, as a comparison of the two
score vectors: element-wise up to the shorter length, and on an equal common
prefix the longer vector ranks higher ("this actually implements More", so
`sort.Sort` orders descending). -/
def lexMore : List ℚ → List ℚ → Bool
  | x :: xs, y :: ys =>
      if y < x then true
      else if x < y then false
      else lexMore xs ys
  | xs, ys => decide (ys.length < xs.length)

/-- `ScoredDocuments.Less` lifted to two rows. -/
def scoredDocLess (a b : ScoredDocument) : Bool := lexMore a.Scores b.Scores

/-- The sorting step of `Ranker.Rank`: `sort.Sort(outputDocs)` with
`ScoredDocuments.Less`, or `sort.Sort(sort.Reverse(outputDocs))` (flipped
comparison) when `ReverseOrder` is set. Go's `sort.Sort` is an unstable
comparison sort whose whole contract is: the output is a permutation of the
input in which an element is never placed after one that is strictly
`Less`; insertion sort with `le a b := ¬Less(b, a)` realizes exactly that
contract. -/
def sortScoredDocuments (reverseOrder : Bool) (docs : List ScoredDocument) :
    List ScoredDocument :=
  if reverseOrder then
    List.insertionSort (fun a b => scoredDocLess a b = false) docs
  else
    List.insertionSort (fun a b => scoredDocLess b a = false) docs

/-- The pagination bounds computed at the end of `Ranker.Rank`:
`start = MinInt(OutputOffset, len)` and
`end = MinInt(OutputOffset+MaxOutputs, len)` when `MaxOutputs != 0`, else
`end = len`. -/
def rankWindow (maxOutputs outputOffset : Int) (n : Nat) : Int × Int :=
  if maxOutputs ≠ 0 then
    (MinInt outputOffset (n : Int), MinInt (outputOffset + maxOutputs) (n : Int))
  else (MinInt outputOffset (n : Int), (n : Int))

/-- `Ranker.Rank(docs, options)`: score every document (skipping those whose
score vector is empty), sort, and return the `[start:end]` window. The final
Go slice panics when `start` or `end` is negative; the model totalizes with
`Int.toNat`, which agrees with Go whenever `0 ≤ start ≤ end ≤ len`. -/
def Ranker.Rank {α : Type} (ranker : Ranker α) (options : RankOptions α)
    (docs : List IndexedDocument) : List ScoredDocument :=
  let outputDocs := docs.foldl
    (fun acc d =>
      let fs := alistGet ranker.fields d.DocId
      let scores := options.ScoringCriteria d fs
      if 0 < scores.length then
        acc ++ [{ DocId := d.DocId
                  Scores := scores
                  TokenSnippetLocations := d.TokenSnippetLocations
                  TokenLocations := d.TokenLocations }]
      else acc)
    []
  let sorted := sortScoredDocuments options.ReverseOrder outputDocs
  let se := rankWindow options.MaxOutputs options.OutputOffset sorted.length
  (sorted.drop se.1.toNat).take (se.2 - se.1).toNat

/-- One request delivered to `Engine.indexerLookupWorker` (the queues and the
return channel are modelled by the produced `LookupWorkerOutcome`). -/
structure IndexerLookupRequest : Type where
  tokens : List String
  labels : List String
  docIds : List Nat

/-- The observable effect of one iteration of `Engine.indexerLookupWorker`:
the request is skipped silently (`continue` with nothing sent), an empty
`rankerReturnRequest` is sent on the request's return channel, or a
`rankerRankRequest` with the lookup hits is forwarded to the shard's rank
queue. -/
inductive LookupWorkerOutcome : Type where
  | skipped : LookupWorkerOutcome
  | emptyResponse : LookupWorkerOutcome
  | rankRequest : List IndexedDocument → LookupWorkerOutcome
deriving DecidableEq, Repr

/-- Tail of the worker iteration: an empty hit list answers the ranker
channel directly, otherwise the hits go to the rank queue. -/
def lookupWorkerSend (docs : List IndexedDocument) : LookupWorkerOutcome :=
  if docs.length = 0 then .emptyResponse else .rankRequest docs

/-- One iteration of `Engine.indexerLookupWorker` on one request: an empty
`docIds` means unrestricted lookup; two entries `[lo, hi]` are expanded into
the inclusive id range (the Go loop `for i := lo; i <= hi; i++` builds its
membership map, modelled by the characteristic function); any other length
hits `continue` before any lookup, leaving every piece of state untouched
and sending nothing (the Go code allocates the still-empty map first, which
has no observable effect). -/
def indexerLookupWorkerStep (indexer : Indexer) (lg : ℚ → ℚ)
    (request : IndexerLookupRequest) : LookupWorkerOutcome :=
  if request.docIds.length = 0 then
    lookupWorkerSend (indexer.Lookup lg request.tokens request.labels none)
  else if request.docIds.length ≠ 2 then .skipped
  else
    let lo := request.docIds.getD 0 0
    let hi := request.docIds.getD 1 0
    lookupWorkerSend (indexer.Lookup lg request.tokens request.labels
      (some (fun i => decide (lo ≤ i) && decide (i ≤ hi))))

/-- Spec-side order on score vectors, straight from the spec's words:
"compare element-wise up to the shorter length; if all equal, the longer
vector wins". `specLexGt xs ys` holds when `xs` ranks strictly higher. -/
def specLexGt (xs ys : List ℚ) : Prop :=
  (∃ k, k < xs.length ∧ k < ys.length ∧
    (∀ m, m < k → xs.getD m 0 = ys.getD m 0) ∧ ys.getD k 0 < xs.getD k 0) ∨
  ((∀ m, m < min xs.length ys.length → xs.getD m 0 = ys.getD m 0) ∧
    ys.length < xs.length)

/-- Spec-side proximity cost of one choice of token positions:
`Σ_{i=0..n−2} |x_{i+1} − x_i − tokLens[i]|`. -/
def pathCost (tokLens : List Int) : List Int → Int
  | [] => 0
  | [_] => 0
  | x :: y :: rest =>
      AbsInt (y - x - tokLens.headD 0) + pathCost tokLens.tail (y :: rest)

/-- All ways of choosing one location from each array (the spec's "choose one
location `x_i ∈ L_i` per token"). -/
def selections : List (List Int) → List (List Int)
  | [] => [[]]
  | L :: Ls => L.flatMap (fun x => (selections Ls).map (x :: ·))

/-- Spec-side BM25 of one matched document, straight from the spec's words:
the sum over the token keys `t` with `df_t > 0`, `f_t > 0` and `avgdl ≠ 0`
of `log2(N/df_t + 1) * f_t * (k1+1) / (f_t + k1*(1 - b + b*dl/avgdl))`,
where `df_t` is the length of `t`'s posting list and `f_t` is the stored
frequency (Frequencies mode) or the number of stored locations (Locations
mode) at the document's cursor, i.e. at the index of `d` in `t.docIds`. -/
def bm25Spec (lg : ℚ → ℚ) (params : BM25Parameters) (n : Nat) (avgdl dl : ℚ)
    (mode : IndexType) (tokenTables : List KeywordIndices) (d : Nat) : ℚ :=
  (tokenTables.map (fun t =>
    let cursor := t.docIds.indexOf d
    let f : ℚ :=
      if mode = .LocationsIndex then ((t.locations.getD cursor []).length : ℚ)
      else t.frequencies.getD cursor 0
    if 0 < t.docIds.length ∧ 0 < f ∧ avgdl ≠ 0 then
      lg ((n : ℚ) / (t.docIds.length : ℚ) + 1) * f * (params.K1 + 1) /
        (f + params.K1 * (1 - params.B + params.B * dl / avgdl))
    else 0)).sum

/-- The posting-list invariants I1 and I2 of the spec, for every row of the
inverted table: doc ids strictly ascending, and the mode's payload array
parallel to the doc-id array. -/
def TableInvariant (mode : IndexType) (table : List (String × KeywordIndices)) : Prop :=
  ∀ p ∈ table,
    List.Pairwise (· < ·) p.2.docIds ∧
    (mode = .FrequenciesIndex → p.2.frequencies.length = p.2.docIds.length) ∧
    (mode = .LocationsIndex → p.2.locations.length = p.2.docIds.length)

/-- Loop invariant of the driving scan of `Indexer.Lookup` for the
non-driving keys: each cursor is inside its row (when the row is non-empty)
and every entry strictly beyond the cursor exceeds the current driving
candidate `base`. -/
def PtrInv (base : Nat) (tables : List KeywordIndices) (ptrs : List Nat) : Prop :=
  ptrs.length = tables.length ∧
  ∀ i, i < tables.length →
    ((tables.getD i default).docIds ≠ [] →
      ptrs.getD i 0 < (tables.getD i default).docIds.length) ∧
    ∀ j, ptrs.getD i 0 < j → j < (tables.getD i default).docIds.length →
      base < (tables.getD i default).docIds.getD j 0

/-- Membership of a doc id in every resolved posting list (the spec-side
"occurs in every key's posting list"). -/
def inAllPostingLists (tables : List KeywordIndices) (d : Nat) : Bool :=
  tables.all (fun t => decide (d ∈ t.docIds))

/-- Spec-side cursor positions of a doc id inside the resolved posting-list
rows: the index of `d` in each row's doc-id array. For a fully matched
candidate these are exactly the `indexPointers` of `Indexer.Lookup` at the
moment the candidate is emitted. -/
def lookupCursors (tables : List KeywordIndices) (d : Nat) : List Nat :=
  tables.map (fun t => t.docIds.indexOf d)

/-- Spec-side scoring stage of `Ranker.Rank`: the input documents whose
criterion score vector is non-empty, in input order, with their scores and
carried-over location data. -/
def scoredOf {α : Type} (ranker : Ranker α) (options : RankOptions α)
    (docs : List IndexedDocument) : List ScoredDocument :=
  docs.filterMap (fun d =>
    let scores := options.ScoringCriteria d (alistGet ranker.fields d.DocId)
    if 0 < scores.length then
      some { DocId := d.DocId
             Scores := scores
             TokenSnippetLocations := d.TokenSnippetLocations
             TokenLocations := d.TokenLocations }
    else none)

/-- The byte lengths `|tok_i|` of the query tokens (UTF-8 byte size, as Go's
`len` on a string). -/
def tokenByteLens (tokens : List String) : List Int :=
  tokens.map (fun t => (t.utf8ByteSize : Int))

/-- Spec-side optimum of the proximity problem: the minimum of
`pathCost` over all selections of one location per array. -/
def specMinProximity (tokLens : List Int) (ls : List (List Int)) : Option Int :=
  ((selections ls).map (pathCost tokLens)).min?

/-- Invariant of the running `(nextMinValues, path-row)` state inside one DP
layer of `computeTokenProximity`: both arrays parallel the next location
array, and every defined DP entry records a relaxation through some source
position with a defined DP value in the current layer, with the path row
remembering that source. -/
def LayerInv (tokLen : Int)
    (currentLocations currentMinValues nextLocations : List Int)
    (st : List Int × List Nat) : Prop :=
  st.1.length = nextLocations.length ∧
  st.2.length = nextLocations.length ∧
  ∀ t, t < nextLocations.length → st.1.getD t 0 ≠ -1 →
    ∃ f, f < currentLocations.length ∧ currentMinValues.getD f 0 ≠ -1 ∧
      st.2.getD t 0 = f ∧
      st.1.getD t 0 = currentMinValues.getD f 0 +
        AbsInt (nextLocations.getD t 0 - currentLocations.getD f 0 - tokLen)

/-- Invariant of the outer DP fold of `computeTokenProximity` after layer
`k`: the state carries layer `k`'s location array, a parallel DP-value array
with at least one defined entry, one path row per completed transition, and
every defined DP value is non-negative and equals the path cost of the
positions its path rows reconstruct, one position per layer, each a member
of its layer's location array. -/
def DPInv (locAt : Nat → List Int) (tokLens : List Int) (k : Nat)
    (st : List Int × List Int × List (List Nat)) : Prop :=
  st.1 = locAt k ∧
  st.2.1.length = (locAt k).length ∧
  st.2.2.length = k ∧
  (∃ j, j < (locAt k).length ∧ st.2.1.getD j 0 ≠ -1) ∧
  ∀ j, j < (locAt k).length → st.2.1.getD j 0 ≠ -1 →
    0 ≤ st.2.1.getD j 0 ∧
    (reconstructLoop locAt st.2.2 j k).length = k + 1 ∧
    (∀ i, i ≤ k → (reconstructLoop locAt st.2.2 j k).getD i 0 ∈ locAt i) ∧
    pathCost tokLens (reconstructLoop locAt st.2.2 j k) = st.2.1.getD j 0

/-- The DP fold of `computeTokenProximity` in isolation: the state after all
layer transitions, as the triple (last locations, last DP values, path rows). -/
def dpState (table : List KeywordIndices) (ptrs : List Nat) (tokens : List String) :
    List Int × List Int × List (List Nat) :=
  (List.range' 1 (tokens.length - 1)).foldl
    (fun (st : List Int × List Int × List (List Nat)) i =>
      let nextLocations := tokenLocs table ptrs i
      let tokLen : Int := ((tokens.getD (i - 1) "").utf8ByteSize : Int)
      let nr := layerStep tokLen st.1 st.2.1 nextLocations
      (nextLocations, nr.1, st.2.2 ++ [nr.2]))
    (tokenLocs table ptrs 0, (tokenLocs table ptrs 0).map (fun _ => (0 : Int)), [])

/-- C8: a lookup request whose `docIds` field has a length other than 0 or 2
is skipped silently by the shard's lookup worker: no index lookup is
performed, no state is changed (the worker is read-only on the indexer in
any case), and nothing is sent on the ranker return channel or the rank
queue. -/
theorem C8_lookupWorker_skips_malformed_docIds (indexer : Indexer) (lg : ℚ → ℚ)
    (request : IndexerLookupRequest) (h0 : request.docIds.length ≠ 0)
    (h2 : request.docIds.length ≠ 2) :
    indexerLookupWorkerStep indexer lg request = .skipped := by
  unfold indexerLookupWorkerStep
  simp [h0, h2]

/-- Witness for C8 at a concrete three-element restriction list. -/
theorem C8_lookupWorker_skips_malformed_docIds_witness :
    (([1, 2, 3] : List Nat).length ≠ 0 ∧ ([1, 2, 3] : List Nat).length ≠ 2) ∧
    indexerLookupWorkerStep (Indexer.Init ⟨.FrequenciesIndex, ⟨2, 1⟩⟩)
      (fun _ => 1) ⟨["x"], [], [1, 2, 3]⟩ = .skipped :=
  ⟨⟨by decide, by decide⟩,
    C8_lookupWorker_skips_malformed_docIds _ _ _ (by decide) (by decide)⟩

/-- C10: for nonnegative `OutputOffset` and `MaxOutputs`, the pagination
bounds computed at the end of `Ranker.Rank` satisfy
`0 ≤ start ≤ end ≤ length`, so the Go sub-slice `outputDocs[start:end]` is
well defined. -/
theorem C10_rankWindow_bounds (maxOutputs outputOffset : Int) (n : Nat)
    (hoff : 0 ≤ outputOffset) (hmax : 0 ≤ maxOutputs) :
    0 ≤ (rankWindow maxOutputs outputOffset n).1 ∧
    (rankWindow maxOutputs outputOffset n).1 ≤ (rankWindow maxOutputs outputOffset n).2 ∧
    (rankWindow maxOutputs outputOffset n).2 ≤ (n : Int) := by
  unfold rankWindow MinInt
  split_ifs <;> simp_all <;> omega

/-- Witness for C10 at `MaxOutputs = 2`, `OutputOffset = 1`, five scored
documents. -/
theorem C10_rankWindow_bounds_witness :
    0 ≤ (rankWindow 2 1 5).1 ∧ (rankWindow 2 1 5).1 ≤ (rankWindow 2 1 5).2 ∧
    (rankWindow 2 1 5).2 ≤ (5 : Int) :=
  C10_rankWindow_bounds 2 1 5 (by decide) (by decide)

theorem alistSum_put_found (l : List (Nat × ℚ)) (k : Nat) (v v' : ℚ)
    (h : alistGet l k = some v) :
    alistSum (alistPut l k v') = alistSum l - v + v' := by
  induction l with
  | nil => simp [alistGet] at h
  | cons p t ih =>
      obtain ⟨a, b⟩ := p
      by_cases hk : k = a
      · subst hk
        simp only [alistGet, if_pos] at h
        simp only [alistPut, if_pos]
        obtain rfl : b = v := Option.some.inj h
        simp [alistSum]
        ring
      · simp only [alistGet, if_neg hk] at h
        simp only [alistPut, if_neg hk]
        simp [alistSum] at ih ⊢
        rw [ih h]
        ring

theorem alistSum_put_none (l : List (Nat × ℚ)) (k : Nat) (v' : ℚ)
    (h : alistGet l k = none) :
    alistSum (alistPut l k v') = alistSum l + v' := by
  induction l with
  | nil => simp [alistPut, alistSum]
  | cons p t ih =>
      obtain ⟨a, b⟩ := p
      by_cases hk : k = a
      · subst hk
        simp [alistGet] at h
      · simp only [alistGet, if_neg hk] at h
        simp only [alistPut, if_neg hk]
        simp [alistSum] at ih ⊢
        rw [ih h]
        ring

theorem addDocumentLengths_table (st : Indexer) (doc : DocumentIndex) :
    (addDocumentLengths st doc).table = st.table := by
  unfold addDocumentLengths
  split
  · split <;> rfl
  · rfl

theorem addDocumentLengths_numDocuments (st : Indexer) (doc : DocumentIndex) :
    (addDocumentLengths st doc).numDocuments = st.numDocuments := by
  unfold addDocumentLengths
  split
  · split <;> rfl
  · rfl

theorem addDocumentLengths_initOptions (st : Indexer) (doc : DocumentIndex) :
    (addDocumentLengths st doc).initOptions = st.initOptions := by
  unfold addDocumentLengths
  split
  · split <;> rfl
  · rfl

theorem addDocumentLengths_total_eq (st : Indexer) (doc : DocumentIndex)
    (h : st.totalTokenLength = alistSum st.docTokenLengths) :
    (addDocumentLengths st doc).totalTokenLength =
      alistSum (addDocumentLengths st doc).docTokenLengths := by
  unfold addDocumentLengths
  split
  · cases hg : alistGet st.docTokenLengths doc.DocId with
    | some v =>
        simp only [hg]
        rw [alistSum_put_found _ _ _ _ hg, h]
        ring
    | none =>
        simp only [hg]
        rw [alistSum_put_none _ _ _ hg, h]
  · exact h

theorem AddDocument_totalTokenLength (st : Indexer) (doc : DocumentIndex) :
    (st.AddDocument doc).totalTokenLength =
      (addDocumentLengths st doc).totalTokenLength := rfl

theorem AddDocument_docTokenLengths (st : Indexer) (doc : DocumentIndex) :
    (st.AddDocument doc).docTokenLengths =
      (addDocumentLengths st doc).docTokenLengths := rfl

theorem AddDocument_numDocuments_cases (st : Indexer) (doc : DocumentIndex) :
    (st.AddDocument doc).numDocuments = st.numDocuments ∨
    (st.AddDocument doc).numDocuments = st.numDocuments + 1 := by
  unfold Indexer.AddDocument
  dsimp only
  split
  · right
    rw [addDocumentLengths_numDocuments]
  · left
    rw [addDocumentLengths_numDocuments]

theorem foldl_numDocuments_le (st : Indexer) (docs : List DocumentIndex) :
    (docs.foldl Indexer.AddDocument st).numDocuments ≤ st.numDocuments + docs.length := by
  induction docs generalizing st with
  | nil => simp
  | cons d ds ih =>
      simp only [List.foldl_cons, List.length_cons]
      have h1 := ih (st.AddDocument d)
      rcases AddDocument_numDocuments_cases st d with h | h <;> omega

/-- Counterexample to C5: indexing doc id 5 with keyword `"a"` and then
re-indexing the same doc id 5 with the disjoint keyword `"b"` leaves
`numDocuments = 2`, although only one distinct doc id was ever passed to
`AddDocument` — so `numDocuments` exceeds the number of distinct doc ids,
and the second (disjoint-keyword) call did increment the counter. -/
theorem C5_counterexample :
    (([⟨5, 1, [⟨"a", 1, []⟩]⟩] : List DocumentIndex).foldl Indexer.AddDocument
        (Indexer.Init ⟨.FrequenciesIndex, ⟨2, 1⟩⟩)).numDocuments = 1 ∧
    (([⟨5, 1, [⟨"a", 1, []⟩]⟩, ⟨5, 1, [⟨"b", 1, []⟩]⟩] : List DocumentIndex).foldl
        Indexer.AddDocument (Indexer.Init ⟨.FrequenciesIndex, ⟨2, 1⟩⟩)).numDocuments = 2 ∧
    (([⟨5, 1, [⟨"a", 1, []⟩]⟩, ⟨5, 1, [⟨"b", 1, []⟩]⟩] :
        List DocumentIndex).map DocumentIndex.DocId).dedup.length = 1 ∧
    ¬((([⟨5, 1, [⟨"a", 1, []⟩]⟩, ⟨5, 1, [⟨"b", 1, []⟩]⟩] : List DocumentIndex).foldl
        Indexer.AddDocument (Indexer.Init ⟨.FrequenciesIndex, ⟨2, 1⟩⟩)).numDocuments ≤
      (([⟨5, 1, [⟨"a", 1, []⟩]⟩, ⟨5, 1, [⟨"b", 1, []⟩]⟩] :
        List DocumentIndex).map DocumentIndex.DocId).dedup.length) := by
  refine ⟨by decide, by decide, by decide, by decide⟩

/-- C5 (amended): `numDocuments` never exceeds the number of `AddDocument`
calls performed since `Init`; it is only an approximation of the distinct
doc-id count and can exceed it, because re-indexing an already-indexed doc
id with keywords disjoint from its previous ones finds the doc id in no
touched posting list and therefore does increment the counter. -/
theorem C5_amended_numDocuments_le_calls (opts : IndexerInitOptions)
    (docs : List DocumentIndex) :
    (docs.foldl Indexer.AddDocument (Indexer.Init opts)).numDocuments ≤ docs.length := by
  have h := foldl_numDocuments_le (Indexer.Init opts) docs
  simpa [Indexer.Init] using h

theorem AddDocument_total_eq_sum (st : Indexer) (doc : DocumentIndex)
    (h : st.totalTokenLength = alistSum st.docTokenLengths) :
    (st.AddDocument doc).totalTokenLength =
      alistSum (st.AddDocument doc).docTokenLengths := by
  rw [AddDocument_totalTokenLength, AddDocument_docTokenLengths]
  exact addDocumentLengths_total_eq st doc h

/-- C9: after any sequence of `AddDocument` calls on a fresh indexer, the
`totalTokenLength` accumulator equals the sum of the values stored in the
per-document token-length table `docTokenLengths`; moreover an
`AddDocument` whose `TokenLength` is zero changes neither of the two. -/
theorem C9_tokenLength_accounting :
    (∀ (opts : IndexerInitOptions) (docs : List DocumentIndex),
      (docs.foldl Indexer.AddDocument (Indexer.Init opts)).totalTokenLength =
        alistSum (docs.foldl Indexer.AddDocument (Indexer.Init opts)).docTokenLengths) ∧
    (∀ (st : Indexer) (doc : DocumentIndex), doc.TokenLength = 0 →
      (st.AddDocument doc).totalTokenLength = st.totalTokenLength ∧
      (st.AddDocument doc).docTokenLengths = st.docTokenLengths) := by
  constructor
  · intro opts docs
    have key : ∀ (st : Indexer), st.totalTokenLength = alistSum st.docTokenLengths →
        (docs.foldl Indexer.AddDocument st).totalTokenLength =
          alistSum (docs.foldl Indexer.AddDocument st).docTokenLengths := by
      induction docs with
      | nil => intro st h; simpa using h
      | cons d ds ih =>
          intro st h
          simpa using ih (st.AddDocument d) (AddDocument_total_eq_sum st d h)
    exact key (Indexer.Init opts) (by simp [Indexer.Init, alistSum])
  · intro st doc h0
    have hzero : ¬(doc.TokenLength ≠ 0) := by simpa using h0
    constructor
    · rw [AddDocument_totalTokenLength]
      unfold addDocumentLengths
      rw [if_neg hzero]
    · rw [AddDocument_docTokenLengths]
      unfold addDocumentLengths
      rw [if_neg hzero]

/-- Witness for C9: a two-document history, and a zero-length `AddDocument`
on its resulting state. -/
theorem C9_tokenLength_accounting_witness :
    (([⟨1, 2, [⟨"a", 1, []⟩]⟩, ⟨2, 3, []⟩] : List DocumentIndex).foldl
        Indexer.AddDocument (Indexer.Init ⟨.FrequenciesIndex, ⟨2, 1⟩⟩)).totalTokenLength =
      alistSum (([⟨1, 2, [⟨"a", 1, []⟩]⟩, ⟨2, 3, []⟩] : List DocumentIndex).foldl
        Indexer.AddDocument (Indexer.Init ⟨.FrequenciesIndex, ⟨2, 1⟩⟩)).docTokenLengths ∧
    ((Indexer.Init ⟨.FrequenciesIndex, ⟨2, 1⟩⟩).AddDocument
        ⟨7, 0, [⟨"z", 1, []⟩]⟩).totalTokenLength =
      (Indexer.Init ⟨.FrequenciesIndex, ⟨2, 1⟩⟩).totalTokenLength ∧
    ((Indexer.Init ⟨.FrequenciesIndex, ⟨2, 1⟩⟩).AddDocument
        ⟨7, 0, [⟨"z", 1, []⟩]⟩).docTokenLengths =
      (Indexer.Init ⟨.FrequenciesIndex, ⟨2, 1⟩⟩).docTokenLengths :=
  ⟨C9_tokenLength_accounting.1 _ _,
    (C9_tokenLength_accounting.2 _ _ rfl).1,
    (C9_tokenLength_accounting.2 _ _ rfl).2⟩

theorem pairwise_lt_getD {ds : List Nat} (hs : List.Pairwise (· < ·) ds)
    {i j : Nat} (hij : i < j) (hj : j < ds.length) :
    ds.getD i 0 < ds.getD j 0 := by
  have hi : i < ds.length := lt_trans hij hj
  rw [List.getD_eq_getElem ds 0 hi, List.getD_eq_getElem ds 0 hj]
  exact List.pairwise_iff_getElem.mp hs i j hi hj hij

theorem pairwise_le_getD {ds : List Nat} (hs : List.Pairwise (· < ·) ds)
    {i j : Nat} (hij : i ≤ j) (hj : j < ds.length) :
    ds.getD i 0 ≤ ds.getD j 0 := by
  rcases Nat.eq_or_lt_of_le hij with rfl | h
  · exact le_refl _
  · exact le_of_lt (pairwise_lt_getD hs h hj)

theorem searchLoopAux_spec (ds : List Nat) (docId : Nat)
    (hs : List.Pairwise (· < ·) ds) :
    ∀ (fuel start e : Nat), e - start ≤ fuel → start < e → e < ds.length →
      ds.getD start 0 < docId → docId < ds.getD e 0 →
      ((searchLoopAux ds docId start e fuel).2 = true →
        start < (searchLoopAux ds docId start e fuel).1 ∧
        (searchLoopAux ds docId start e fuel).1 < e ∧
        ds.getD (searchLoopAux ds docId start e fuel).1 0 = docId) ∧
      ((searchLoopAux ds docId start e fuel).2 = false →
        start < (searchLoopAux ds docId start e fuel).1 ∧
        (searchLoopAux ds docId start e fuel).1 ≤ e ∧
        ds.getD ((searchLoopAux ds docId start e fuel).1 - 1) 0 < docId ∧
        docId < ds.getD (searchLoopAux ds docId start e fuel).1 0) := by
  intro fuel
  induction fuel with
  | zero =>
      intro start e hfuel hse _ _ _
      omega
  | succ fuel ih =>
      intro start e hfuel hse he hlow hhigh
      simp only [searchLoopAux]
      by_cases hgap : 1 < e - start
      · rw [if_pos hgap]
        have hm1 : start < (start + e) / 2 := by omega
        have hm2 : (start + e) / 2 < e := by omega
        by_cases heq : docId = ds.getD ((start + e) / 2) 0
        · rw [if_pos heq]
          exact ⟨fun _ => ⟨hm1, hm2, heq.symm⟩, fun hf => by simp at hf⟩
        · rw [if_neg heq]
          by_cases hlt : ds.getD ((start + e) / 2) 0 < docId
          · rw [if_pos hlt]
            have hres := ih ((start + e) / 2) e (by omega) hm2 he hlt hhigh
            refine ⟨fun hf => ?_, fun hf => ?_⟩
            · obtain ⟨a, b, c⟩ := hres.1 hf
              exact ⟨lt_trans hm1 a, b, c⟩
            · obtain ⟨a, b, c, d⟩ := hres.2 hf
              exact ⟨lt_trans hm1 a, b, c, d⟩
          · rw [if_neg hlt]
            have hm3 : docId < ds.getD ((start + e) / 2) 0 := by
              rcases lt_trichotomy docId (ds.getD ((start + e) / 2) 0) with h | h | h
              · exact h
              · exact absurd h heq
              · exact absurd h hlt
            have hres := ih start ((start + e) / 2) (by omega) hm1
              (lt_trans hm2 he) hlow hm3
            refine ⟨fun hf => ?_, fun hf => ?_⟩
            · obtain ⟨a, b, c⟩ := hres.1 hf
              exact ⟨a, lt_trans b hm2, c⟩
            · obtain ⟨a, b, c, d⟩ := hres.2 hf
              exact ⟨a, le_trans b (le_of_lt hm2), c, d⟩
      · rw [if_neg hgap]
        refine ⟨fun hf => by simp at hf, fun _ => ?_⟩
        have he1 : e = start + 1 := by omega
        refine ⟨by omega, le_refl e, ?_, hhigh⟩
        have : e - 1 = start := by omega
        rw [this]
        exact hlow

theorem searchIndexGo_spec (ds : List Nat) (e docId : Nat)
    (hs : List.Pairwise (· < ·) ds) (he : e < ds.length) :
    ((searchIndexGo ds 0 e docId).2 = true →
      (searchIndexGo ds 0 e docId).1 ≤ e ∧
      (searchIndexGo ds 0 e docId).1 < ds.length ∧
      ds.getD (searchIndexGo ds 0 e docId).1 0 = docId) ∧
    ((searchIndexGo ds 0 e docId).2 = false →
      (searchIndexGo ds 0 e docId).1 ≤ e + 1 ∧
      (∀ j, j < (searchIndexGo ds 0 e docId).1 → ds.getD j 0 < docId) ∧
      (∀ j, (searchIndexGo ds 0 e docId).1 ≤ j → j ≤ e →
        docId < ds.getD j 0)) := by
  have hlen : 0 < ds.length := lt_of_le_of_lt (Nat.zero_le e) he
  unfold searchIndexGo
  rw [if_neg (by omega : ¬ ds.length = 0)]
  by_cases h1 : docId < ds.getD 0 0
  · rw [if_pos h1]
    refine ⟨fun hf => by simp at hf, fun _ => ⟨by omega, fun j hj => by omega, ?_⟩⟩
    intro j _ hje
    rcases Nat.eq_zero_or_pos j with rfl | hj
    · exact h1
    · exact lt_trans h1 (pairwise_lt_getD hs hj (lt_of_le_of_lt hje he))
  · rw [if_neg h1]
    by_cases h2 : docId = ds.getD 0 0
    · rw [if_pos h2]
      exact ⟨fun _ => ⟨Nat.zero_le e, hlen, h2.symm⟩, fun hf => by simp at hf⟩
    · rw [if_neg h2]
      by_cases h3 : ds.getD e 0 < docId
      · rw [if_pos h3]
        refine ⟨fun hf => by simp at hf, fun _ => ⟨le_refl _, ?_, ?_⟩⟩
        · intro j hj
          exact lt_of_le_of_lt (pairwise_le_getD hs (by omega) he) h3
        · intro j hj1 hj2
          omega
      · rw [if_neg h3]
        by_cases h4 : docId = ds.getD e 0
        · rw [if_pos h4]
          exact ⟨fun _ => ⟨le_refl e, he, h4.symm⟩, fun hf => by simp at hf⟩
        · rw [if_neg h4]
          have hlow : ds.getD 0 0 < docId := by
            rcases lt_trichotomy docId (ds.getD 0 0) with h | h | h
            · exact absurd h h1
            · exact absurd h h2
            · exact h
          have hhigh : docId < ds.getD e 0 := by
            rcases lt_trichotomy docId (ds.getD e 0) with h | h | h
            · exact h
            · exact absurd h h4
            · exact absurd h h3
          have he0 : 0 < e := by
            rcases Nat.eq_zero_or_pos e with rfl | h
            · exact absurd (lt_trans hlow hhigh) (lt_irrefl _)
            · exact h
          unfold searchLoop
          have hspec := searchLoopAux_spec ds docId hs (e - 0) 0 e (by omega)
            he0 he hlow hhigh
          refine ⟨fun hf => ?_, fun hf => ?_⟩
          · obtain ⟨a, b, c⟩ := hspec.1 hf
            exact ⟨le_of_lt b, lt_trans b he, c⟩
          · obtain ⟨a, b, c, d⟩ := hspec.2 hf
            have hp : (searchLoopAux ds docId 0 e (e - 0)).1 ≤ e := b
            refine ⟨by omega, ?_, ?_⟩
            · intro j hj
              have hj1 : j ≤ (searchLoopAux ds docId 0 e (e - 0)).1 - 1 := by omega
              exact lt_of_le_of_lt
                (pairwise_le_getD hs hj1 (by omega)) c
            · intro j hj1 hj2
              exact lt_of_lt_of_le d
                (pairwise_le_getD hs hj1 (lt_of_le_of_lt hj2 he))

theorem insertAt_length {α : Type} (l : List α) (p : Nat) (x : α) :
    (insertAt l p x).length = l.length + 1 := by
  simp [insertAt]
  omega

theorem pairwise_insertAt (ds : List Nat) (p x : Nat)
    (hs : List.Pairwise (· < ·) ds)
    (hlow : ∀ j, j < p → j < ds.length → ds.getD j 0 < x)
    (hhigh : ∀ j, p ≤ j → j < ds.length → x < ds.getD j 0) :
    List.Pairwise (· < ·) (insertAt ds p x) := by
  unfold insertAt
  rw [List.pairwise_append]
  refine ⟨List.Pairwise.sublist (List.take_sublist p ds) hs, ?_, ?_⟩
  · constructor
    · intro b hb
      obtain ⟨i, hi, rfl⟩ := List.mem_iff_getElem.mp hb
      rw [List.getElem_drop]
      have hlt : p + i < ds.length := by
        have h' := hi; rw [List.length_drop] at h'; omega
      have hx := hhigh (p + i) (by omega) hlt
      rwa [List.getD_eq_getElem ds 0 hlt] at hx
    · exact List.Pairwise.sublist (List.drop_sublist p ds) hs
  · intro a ha b hb
    obtain ⟨i, hi, rfl⟩ := List.mem_iff_getElem.mp ha
    have hip : i < p := by have h' := hi; rw [List.length_take] at h'; omega
    have hilen : i < ds.length := by
      have h' := hi; rw [List.length_take] at h'; omega
    rw [List.getElem_take]
    rcases List.mem_cons.mp hb with rfl | hb'
    · have hx := hlow i hip hilen
      rwa [List.getD_eq_getElem ds 0 hilen] at hx
    · obtain ⟨j, hj, rfl⟩ := List.mem_iff_getElem.mp hb'
      rw [List.getElem_drop]
      have hjlen : p + j < ds.length := by
        have h' := hj; rw [List.length_drop] at h'; omega
      exact List.pairwise_iff_getElem.mp hs i (p + j) hilen hjlen (by omega)

theorem mem_alistPut {α β : Type} [DecidableEq α] (l : List (α × β)) (k : α)
    (v : β) (q : α × β) (hq : q ∈ alistPut l k v) : q = (k, v) ∨ q ∈ l := by
  induction l with
  | nil => simpa [alistPut] using hq
  | cons p t ih =>
      by_cases hk : k = p.1
      · obtain ⟨a, b⟩ := p
        simp only [alistPut] at hq
        rw [if_pos hk] at hq
        rcases List.mem_cons.mp hq with rfl | h
        · exact Or.inl rfl
        · exact Or.inr (List.mem_cons_of_mem _ h)
      · obtain ⟨a, b⟩ := p
        simp only [alistPut] at hq
        rw [if_neg hk] at hq
        rcases List.mem_cons.mp hq with rfl | h
        · exact Or.inr (List.mem_cons_self _ _)
        · rcases ih h with h' | h'
          · exact Or.inl h'
          · exact Or.inr (List.mem_cons_of_mem _ h')

theorem alistGet_mem {α β : Type} [DecidableEq α] (l : List (α × β)) (k : α)
    (v : β) (h : alistGet l k = some v) : (k, v) ∈ l := by
  induction l with
  | nil => simp [alistGet] at h
  | cons p t ih =>
      obtain ⟨a, b⟩ := p
      by_cases hk : k = a
      · subst hk
        simp only [alistGet, if_pos] at h
        obtain rfl : b = v := Option.some.inj h
        exact List.mem_cons_self _ _
      · simp only [alistGet, if_neg hk] at h
        exact List.mem_cons_of_mem _ (ih h)

theorem addDocumentKeyword_invariant (mode : IndexType) (docId : Nat)
    (st : List (String × KeywordIndices) × Bool) (kw : KeywordIndex)
    (h : TableInvariant mode st.1) :
    TableInvariant mode (addDocumentKeyword mode docId st kw).1 := by
  obtain ⟨table, flag⟩ := st
  unfold addDocumentKeyword
  dsimp only
  cases hget : alistGet table kw.Text with
  | none =>
      dsimp only
      intro q hq
      rcases mem_alistPut _ _ _ q hq with rfl | hq'
      · refine ⟨by simp, ?_, ?_⟩
        · intro hm
          subst hm
          simp
        · intro hm
          subst hm
          simp
      · exact h q hq'
  | some indices =>
      dsimp only
      obtain ⟨hsort, hfreq, hloc⟩ := h (kw.Text, indices) (alistGet_mem _ _ _ hget)
      by_cases hfound :
        (searchIndexGo indices.docIds 0 (indices.docIds.length - 1) docId).2 = true
      · rw [if_pos hfound]
        intro q hq
        rcases mem_alistPut _ _ _ q hq with rfl | hq'
        · refine ⟨hsort, ?_, ?_⟩
          · intro hm
            subst hm
            simpa using hfreq rfl
          · intro hm
            subst hm
            simpa using hloc rfl
        · exact h q hq'
      · rw [if_neg hfound]
        have hbool : (searchIndexGo indices.docIds 0
            (indices.docIds.length - 1) docId).2 = false := by
          revert hfound
          cases (searchIndexGo indices.docIds 0
            (indices.docIds.length - 1) docId).2 <;> simp
        have hbounds :
            (∀ j, j < (searchIndexGo indices.docIds 0
                (indices.docIds.length - 1) docId).1 →
              j < indices.docIds.length → indices.docIds.getD j 0 < docId) ∧
            (∀ j, (searchIndexGo indices.docIds 0
                (indices.docIds.length - 1) docId).1 ≤ j →
              j < indices.docIds.length → docId < indices.docIds.getD j 0) := by
          rcases Nat.eq_zero_or_pos indices.docIds.length with hz | hpos
          · constructor <;> intro j _ hj <;> omega
          · have hspec := (searchIndexGo_spec indices.docIds
              (indices.docIds.length - 1) docId hsort (by omega)).2 hbool
            obtain ⟨_, hlow, hhigh⟩ := hspec
            exact ⟨fun j hj _ => hlow j hj,
              fun j hj1 hj2 => hhigh j hj1 (by omega)⟩
        intro q hq
        rcases mem_alistPut _ _ _ q hq with rfl | hq'
        · refine ⟨?_, ?_, ?_⟩
          · exact pairwise_insertAt _ _ _ hsort
              (fun j hj hjl => hbounds.1 j hj hjl)
              (fun j hj hjl => hbounds.2 j hj hjl)
          · intro hm
            subst hm
            simp only [if_pos]
            rw [insertAt_length, insertAt_length, hfreq rfl]
          · intro hm
            subst hm
            simp only [if_pos]
            rw [insertAt_length, insertAt_length, hloc rfl]
        · exact h q hq'

theorem foldl_addDocumentKeyword_invariant (mode : IndexType) (docId : Nat)
    (kws : List KeywordIndex) (st : List (String × KeywordIndices) × Bool)
    (h : TableInvariant mode st.1) :
    TableInvariant mode (kws.foldl (addDocumentKeyword mode docId) st).1 := by
  induction kws generalizing st with
  | nil => exact h
  | cons k ks ih => exact ih _ (addDocumentKeyword_invariant mode docId st k h)

theorem AddDocument_table (st : Indexer) (doc : DocumentIndex) :
    (st.AddDocument doc).table =
      (doc.Keywords.foldl
        (addDocumentKeyword st.initOptions.IndexType doc.DocId)
        (st.table, true)).1 := by
  unfold Indexer.AddDocument
  dsimp only
  rw [addDocumentLengths_table, addDocumentLengths_initOptions]

theorem AddDocument_initOptions (st : Indexer) (doc : DocumentIndex) :
    (st.AddDocument doc).initOptions = st.initOptions := by
  unfold Indexer.AddDocument
  dsimp only
  rw [addDocumentLengths_initOptions]

theorem AddDocument_invariant (st : Indexer) (doc : DocumentIndex)
    (h : TableInvariant st.initOptions.IndexType st.table) :
    TableInvariant st.initOptions.IndexType (st.AddDocument doc).table := by
  rw [AddDocument_table]
  exact foldl_addDocumentKeyword_invariant _ _ _ _ h

/-- C2: after every sequence of `AddDocument` calls on a fresh indexer, every
posting list in the inverted table has a strictly ascending doc-id array,
and the payload array of the active mode (frequencies in Frequencies mode,
locations in Locations mode) has the same length as the doc-id array. -/
theorem C2_posting_list_invariants (opts : IndexerInitOptions)
    (docs : List DocumentIndex) :
    TableInvariant opts.IndexType
      (docs.foldl Indexer.AddDocument (Indexer.Init opts)).table := by
  suffices key : ∀ st : Indexer, st.initOptions = opts →
      TableInvariant opts.IndexType st.table →
      TableInvariant opts.IndexType (docs.foldl Indexer.AddDocument st).table by
    refine key _ rfl ?_
    intro q hq
    simp [Indexer.Init] at hq
  induction docs with
  | nil => intro st _ h; exact h
  | cons d ds ih =>
      intro st hopts h
      refine ih (st.AddDocument d) ?_ ?_
      · rw [AddDocument_initOptions, hopts]
      · rw [← hopts] at h ⊢
        exact AddDocument_invariant st d h

theorem lexMore_cons_cons (x y : ℚ) (xs ys : List ℚ) :
    lexMore (x :: xs) (y :: ys) =
      if y < x then true else if x < y then false else lexMore xs ys := rfl

theorem lexMore_nil (ys : List ℚ) : lexMore [] ys = false := by
  cases ys <;> simp [lexMore]

theorem lexMore_cons_nil (x : ℚ) (xs : List ℚ) : lexMore (x :: xs) [] = true := by
  simp [lexMore]

theorem lexMore_asymm : ∀ (xs ys : List ℚ),
    lexMore xs ys = true → lexMore ys xs = false
  | [], ys, h => by rw [lexMore_nil] at h; exact absurd h (by simp)
  | x :: xs, [], _ => lexMore_nil (x :: xs)
  | x :: xs, y :: ys, h => by
      rw [lexMore_cons_cons] at h
      rw [lexMore_cons_cons]
      by_cases h1 : y < x
      · rw [if_neg (lt_asymm h1), if_pos h1]
      · rw [if_neg h1] at h
        by_cases h2 : x < y
        · rw [if_pos h2] at h
          exact absurd h (by simp)
        · rw [if_neg h2] at h
          rw [if_neg h2, if_neg h1]
          exact lexMore_asymm xs ys h

theorem lexMore_negTrans : ∀ (a b c : List ℚ),
    lexMore b a = false → lexMore c b = false → lexMore c a = false
  | a, [], c, _, h2 => by
      cases c with
      | nil => exact lexMore_nil a
      | cons z zs => rw [lexMore_cons_nil] at h2; exact absurd h2 (by simp)
  | a, y :: ys, [], _, _ => lexMore_nil a
  | [], y :: ys, z :: zs, h1, _ => by
      rw [lexMore_cons_nil] at h1
      exact absurd h1 (by simp)
  | x :: xs, y :: ys, z :: zs, h1, h2 => by
      rw [lexMore_cons_cons] at h1 h2
      rw [lexMore_cons_cons]
      have hyx : ¬ x < y := by
        intro hlt
        rw [if_pos hlt] at h1
        exact absurd h1 (by simp)
      rw [if_neg hyx] at h1
      have hzy : ¬ y < z := by
        intro hlt
        rw [if_pos hlt] at h2
        exact absurd h2 (by simp)
      rw [if_neg hzy] at h2
      have hxz : ¬ x < z := fun hlt =>
        absurd (lt_of_lt_of_le hlt (le_of_not_lt hzy)) hyx
      rw [if_neg hxz]
      by_cases hzx : z < x
      · rw [if_pos hzx]
      · rw [if_neg hzx]
        have hxz' : x = z := le_antisymm (le_of_not_lt hzx) (le_of_not_lt hxz)
        have hxy : x = y :=
          le_antisymm (le_of_not_lt (hxz' ▸ hzy)) (le_of_not_lt hyx)
        have hyx2 : ¬ y < x := by rw [← hxy]; exact lt_irrefl x
        have hzy2 : ¬ z < y := by rw [← hxz', hxy]; exact lt_irrefl y
        rw [if_neg hyx2] at h1
        rw [if_neg hzy2] at h2
        exact lexMore_negTrans xs ys zs h1 h2

theorem specLexGt_cons_cons (x : ℚ) (xs ys : List ℚ) :
    specLexGt (x :: xs) (x :: ys) ↔ specLexGt xs ys := by
  constructor
  · rintro (⟨k, hk1, hk2, hpre, hlt⟩ | ⟨hpre, hlen⟩)
    · cases k with
      | zero => simp at hlt
      | succ k' =>
          left
          refine ⟨k', by simpa using hk1, by simpa using hk2, ?_, ?_⟩
          · intro m hm
            have := hpre (m + 1) (by omega)
            simpa using this
          · simpa using hlt
    · right
      refine ⟨?_, by simpa using hlen⟩
      intro m hm
      have := hpre (m + 1) (by simp; omega)
      simpa using this
  · rintro (⟨k, hk1, hk2, hpre, hlt⟩ | ⟨hpre, hlen⟩)
    · left
      refine ⟨k + 1, by simpa using hk1, by simpa using hk2, ?_, ?_⟩
      · intro m hm
        cases m with
        | zero => simp
        | succ m' => simpa using hpre m' (by omega)
      · simpa using hlt
    · right
      refine ⟨?_, by simpa using hlen⟩
      intro m hm
      cases m with
      | zero => simp
      | succ m' =>
          have hm' : m' < min xs.length ys.length := by simp at hm; omega
          simpa using hpre m' hm'

theorem lexMore_iff_specLexGt : ∀ (xs ys : List ℚ),
    lexMore xs ys = true ↔ specLexGt xs ys
  | [], ys => by
      rw [lexMore_nil]
      simp only [specLexGt]
      constructor
      · intro h; exact absurd h (by simp)
      · rintro (⟨k, hk, _⟩ | ⟨_, hlen⟩)
        · simp at hk
        · simp at hlen
  | x :: xs, [] => by
      rw [lexMore_cons_nil]
      constructor
      · intro _
        right
        exact ⟨by simp, by simp⟩
      · intro _; rfl
  | x :: xs, y :: ys => by
      rw [lexMore_cons_cons]
      by_cases h1 : y < x
      · rw [if_pos h1]
        constructor
        · intro _
          left
          exact ⟨0, by simp, by simp, by omega, by simpa using h1⟩
        · intro _; rfl
      · rw [if_neg h1]
        by_cases h2 : x < y
        · rw [if_pos h2]
          constructor
          · intro h; exact absurd h (by simp)
          · rintro (⟨k, hk1, hk2, hpre, hlt⟩ | ⟨hpre, _⟩)
            · cases k with
              | zero => simp at hlt; exact absurd (lt_trans h2 hlt) (lt_irrefl x)
              | succ k' =>
                  have := hpre 0 (by omega)
                  simp at this
                  exact absurd this (ne_of_lt h2)
            · have := hpre 0 (by simp)
              simp at this
              exact absurd this (ne_of_lt h2)
        · rw [if_neg h2]
          have hxy : x = y := le_antisymm (le_of_not_lt h1) (le_of_not_lt h2)
          subst hxy
          rw [lexMore_iff_specLexGt xs ys, specLexGt_cons_cons]

theorem rank_fold_eq {α : Type} (ranker : Ranker α) (options : RankOptions α) :
    ∀ (docs : List IndexedDocument) (acc : List ScoredDocument),
      docs.foldl
        (fun acc d =>
          let fs := alistGet ranker.fields d.DocId
          let scores := options.ScoringCriteria d fs
          if 0 < scores.length then
            acc ++ [{ DocId := d.DocId
                      Scores := scores
                      TokenSnippetLocations := d.TokenSnippetLocations
                      TokenLocations := d.TokenLocations }]
          else acc)
        acc = acc ++ scoredOf ranker options docs
  | [], acc => by simp [scoredOf]
  | d :: ds, acc => by
      simp only [List.foldl_cons, scoredOf, List.filterMap_cons]
      by_cases h :
        0 < (options.ScoringCriteria d (alistGet ranker.fields d.DocId)).length
      · rw [if_pos h, if_pos h]
        rw [rank_fold_eq ranker options ds]
        simp [scoredOf]
      · rw [if_neg h, if_neg h]
        rw [rank_fold_eq ranker options ds]
        simp [scoredOf]

theorem rankWindow_slice {α : Type} (l : List α) (maxOutputs outputOffset : Int)
    (hoff : 0 ≤ outputOffset) (hmax : 0 ≤ maxOutputs) :
    (l.drop (rankWindow maxOutputs outputOffset l.length).1.toNat).take
        ((rankWindow maxOutputs outputOffset l.length).2 -
          (rankWindow maxOutputs outputOffset l.length).1).toNat =
      (l.drop outputOffset.toNat).take
        (if maxOutputs = 0 then l.length else maxOutputs.toNat) := by
  have hdroplen : (l.drop outputOffset.toNat).length = l.length - outputOffset.toNat :=
    List.length_drop _ _
  unfold rankWindow MinInt
  by_cases hm : maxOutputs = 0
  · rw [if_neg (by simpa using hm), if_pos hm]
    by_cases h1 : outputOffset < (l.length : Int)
    · rw [if_pos h1]
      dsimp only
      have hc : ((l.length : Int) - outputOffset).toNat = l.length - outputOffset.toNat := by
        omega
      rw [hc]
      rw [List.take_of_length_le (by omega), List.take_of_length_le (by omega)]
    · rw [if_neg h1]
      dsimp only
      have h2 : l.length ≤ outputOffset.toNat := by omega
      rw [Int.toNat_natCast, List.drop_length, List.drop_eq_nil_of_le h2]
      simp
  · rw [if_pos hm, if_neg hm]
    by_cases h1 : outputOffset < (l.length : Int)
    · rw [if_pos h1]
      by_cases h2 : outputOffset + maxOutputs < (l.length : Int)
      · rw [if_pos h2]
        dsimp only
        have hc : (outputOffset + maxOutputs - outputOffset).toNat = maxOutputs.toNat := by
          omega
        rw [hc]
      · rw [if_neg h2]
        dsimp only
        have hc : ((l.length : Int) - outputOffset).toNat = l.length - outputOffset.toNat := by
          omega
        rw [hc]
        rw [List.take_of_length_le (by omega), List.take_of_length_le (by omega)]
    · rw [if_neg h1]
      dsimp only
      have h2 : l.length ≤ outputOffset.toNat := by omega
      have h3 : ¬ outputOffset + maxOutputs < (l.length : Int) := by omega
      rw [if_neg h3]
      rw [Int.toNat_natCast, List.drop_length, List.drop_eq_nil_of_le h2]
      simp

theorem scoredLE_total : ∀ a b : ScoredDocument,
    scoredDocLess b a = false ∨ scoredDocLess a b = false := by
  intro a b
  by_cases h : scoredDocLess b a = true
  · exact Or.inr (lexMore_asymm _ _ h)
  · exact Or.inl (by revert h; cases scoredDocLess b a <;> simp)

theorem scoredLE_trans : ∀ a b c : ScoredDocument,
    scoredDocLess b a = false → scoredDocLess c b = false →
    scoredDocLess c a = false := by
  intro a b c hab hbc
  exact lexMore_negTrans a.Scores b.Scores c.Scores hab hbc

/-- C6: `Ranker.Rank` returns exactly the input documents whose criterion
score vector is non-empty, ordered by score vector (descending in the
spec-side order `specLexGt` by default, ascending when `ReverseOrder`), cut
to the window that starts at `OutputOffset` and has size `MaxOutputs`
(`MaxOutputs = 0` meaning all remaining documents); an `OutputOffset` at or
beyond the number of scored documents yields an empty result. -/
theorem C6_rank_spec {α : Type} (ranker : Ranker α) (options : RankOptions α)
    (docs : List IndexedDocument)
    (hoff : 0 ≤ options.OutputOffset) (hmax : 0 ≤ options.MaxOutputs) :
    (sortScoredDocuments options.ReverseOrder (scoredOf ranker options docs)).Perm
        (scoredOf ranker options docs) ∧
    (options.ReverseOrder = false →
      (sortScoredDocuments options.ReverseOrder (scoredOf ranker options docs)).Pairwise
        (fun a b => ¬ specLexGt b.Scores a.Scores)) ∧
    (options.ReverseOrder = true →
      (sortScoredDocuments options.ReverseOrder (scoredOf ranker options docs)).Pairwise
        (fun a b => ¬ specLexGt a.Scores b.Scores)) ∧
    ranker.Rank options docs =
      ((sortScoredDocuments options.ReverseOrder (scoredOf ranker options docs)).drop
          options.OutputOffset.toNat).take
        (if options.MaxOutputs = 0 then
          (sortScoredDocuments options.ReverseOrder (scoredOf ranker options docs)).length
         else options.MaxOutputs.toNat) ∧
    ((sortScoredDocuments options.ReverseOrder (scoredOf ranker options docs)).length
        ≤ options.OutputOffset.toNat → ranker.Rank options docs = []) := by
  have hrank : ranker.Rank options docs =
      ((sortScoredDocuments options.ReverseOrder (scoredOf ranker options docs)).drop
          options.OutputOffset.toNat).take
        (if options.MaxOutputs = 0 then
          (sortScoredDocuments options.ReverseOrder (scoredOf ranker options docs)).length
         else options.MaxOutputs.toNat) := by
    unfold Ranker.Rank
    rw [rank_fold_eq ranker options docs []]
    rw [List.nil_append]
    exact rankWindow_slice _ _ _ hoff hmax
  refine ⟨?_, ?_, ?_, hrank, ?_⟩
  · unfold sortScoredDocuments
    split <;> exact List.perm_insertionSort _ _
  · intro hrev
    unfold sortScoredDocuments
    rw [if_neg (by simp [hrev])]
    haveI : IsTotal ScoredDocument (fun a b => scoredDocLess b a = false) :=
      ⟨fun a b => scoredLE_total a b⟩
    haveI : IsTrans ScoredDocument (fun a b => scoredDocLess b a = false) :=
      ⟨fun a b c => scoredLE_trans a b c⟩
    refine List.Pairwise.imp ?_ (List.sorted_insertionSort _ _)
    intro a b hab hgt
    rw [← lexMore_iff_specLexGt] at hgt
    rw [scoredDocLess, hgt] at hab
    exact absurd hab (by simp)
  · intro hrev
    unfold sortScoredDocuments
    rw [if_pos hrev]
    haveI : IsTotal ScoredDocument (fun a b => scoredDocLess a b = false) :=
      ⟨fun a b => (scoredLE_total b a).symm.imp id id |>.symm⟩
    haveI : IsTrans ScoredDocument (fun a b => scoredDocLess a b = false) :=
      ⟨fun a b c hab hbc => lexMore_negTrans c.Scores b.Scores a.Scores hbc hab⟩
    refine List.Pairwise.imp ?_ (List.sorted_insertionSort _ _)
    intro a b hab hgt
    rw [← lexMore_iff_specLexGt] at hgt
    rw [scoredDocLess, hgt] at hab
    exact absurd hab (by simp)
  · intro hlen
    rw [hrank]
    rw [List.drop_eq_nil_of_le hlen]
    simp

/-- Witness for C6: an empty side table, a criterion that drops doc 0 and
scores doc `d` as `[d]`, three documents, default options. -/
theorem C6_rank_spec_witness :
    (sortScoredDocuments false (scoredOf (α := Unit) ⟨[]⟩
        ⟨fun d _ => if d.DocId = 0 then [] else [(d.DocId : ℚ)], false, 0, 0⟩
        [⟨0, 0, 0, [], []⟩, ⟨1, 0, 0, [], []⟩, ⟨2, 0, 0, [], []⟩])).Perm
      (scoredOf (α := Unit) ⟨[]⟩
        ⟨fun d _ => if d.DocId = 0 then [] else [(d.DocId : ℚ)], false, 0, 0⟩
        [⟨0, 0, 0, [], []⟩, ⟨1, 0, 0, [], []⟩, ⟨2, 0, 0, [], []⟩]) ∧
    (false = false →
      (sortScoredDocuments false (scoredOf (α := Unit) ⟨[]⟩
        ⟨fun d _ => if d.DocId = 0 then [] else [(d.DocId : ℚ)], false, 0, 0⟩
        [⟨0, 0, 0, [], []⟩, ⟨1, 0, 0, [], []⟩, ⟨2, 0, 0, [], []⟩])).Pairwise
        (fun a b => ¬ specLexGt b.Scores a.Scores)) ∧
    (false = true →
      (sortScoredDocuments false (scoredOf (α := Unit) ⟨[]⟩
        ⟨fun d _ => if d.DocId = 0 then [] else [(d.DocId : ℚ)], false, 0, 0⟩
        [⟨0, 0, 0, [], []⟩, ⟨1, 0, 0, [], []⟩, ⟨2, 0, 0, [], []⟩])).Pairwise
        (fun a b => ¬ specLexGt a.Scores b.Scores)) ∧
    Ranker.Rank (α := Unit) ⟨[]⟩
        ⟨fun d _ => if d.DocId = 0 then [] else [(d.DocId : ℚ)], false, 0, 0⟩
        [⟨0, 0, 0, [], []⟩, ⟨1, 0, 0, [], []⟩, ⟨2, 0, 0, [], []⟩] =
      ((sortScoredDocuments false (scoredOf (α := Unit) ⟨[]⟩
          ⟨fun d _ => if d.DocId = 0 then [] else [(d.DocId : ℚ)], false, 0, 0⟩
          [⟨0, 0, 0, [], []⟩, ⟨1, 0, 0, [], []⟩, ⟨2, 0, 0, [], []⟩])).drop
        (Int.toNat 0)).take
        (if (0 : Int) = 0 then
          (sortScoredDocuments false (scoredOf (α := Unit) ⟨[]⟩
            ⟨fun d _ => if d.DocId = 0 then [] else [(d.DocId : ℚ)], false, 0, 0⟩
            [⟨0, 0, 0, [], []⟩, ⟨1, 0, 0, [], []⟩, ⟨2, 0, 0, [], []⟩])).length
         else Int.toNat 0) ∧
    ((sortScoredDocuments false (scoredOf (α := Unit) ⟨[]⟩
        ⟨fun d _ => if d.DocId = 0 then [] else [(d.DocId : ℚ)], false, 0, 0⟩
        [⟨0, 0, 0, [], []⟩, ⟨1, 0, 0, [], []⟩, ⟨2, 0, 0, [], []⟩])).length
        ≤ Int.toNat 0 →
      Ranker.Rank (α := Unit) ⟨[]⟩
        ⟨fun d _ => if d.DocId = 0 then [] else [(d.DocId : ℚ)], false, 0, 0⟩
        [⟨0, 0, 0, [], []⟩, ⟨1, 0, 0, [], []⟩, ⟨2, 0, 0, [], []⟩] = []) :=
  C6_rank_spec (α := Unit) ⟨[]⟩
    ⟨fun d _ => if d.DocId = 0 then [] else [(d.DocId : ℚ)], false, 0, 0⟩
    [⟨0, 0, 0, [], []⟩, ⟨1, 0, 0, [], []⟩, ⟨2, 0, 0, [], []⟩]
    (by decide) (by decide)

theorem searchIndexGo_nil (e docId : Nat) :
    searchIndexGo [] 0 e docId = (0, false) := by
  simp [searchIndexGo]

theorem getD_mem {ds : List Nat} {j : Nat} (hj : j < ds.length) :
    ds.getD j 0 ∈ ds := by
  rw [List.getD_eq_getElem ds 0 hj]
  exact List.getElem_mem hj

theorem indexOf_eq_of_getD {ds : List Nat} {d : Nat}
    (hs : List.Pairwise (· < ·) ds) :
    ∀ {j : Nat}, j < ds.length → ds.getD j 0 = d → ds.indexOf d = j := by
  induction ds with
  | nil => intro j hj _; simp at hj
  | cons a t ih =>
      intro j hj hd
      cases j with
      | zero =>
          simp only [List.getD_cons_zero] at hd
          subst hd
          simp [List.indexOf_cons_self]
      | succ j' =>
          simp only [List.getD_cons_succ] at hd
          have hj' : j' < t.length := by simpa using hj
          have hdt : d ∈ t := by rw [← hd]; exact getD_mem hj'
          have hne : a ≠ d := by
            have := (List.pairwise_cons.mp hs).1 d hdt
            omega
          rw [List.indexOf_cons_ne _ (by simpa using hne)]
          rw [ih (List.pairwise_cons.mp hs).2 hj' hd]

theorem PtrInv_mono {base base' : Nat} {tables : List KeywordIndices}
    {ptrs : List Nat} (hle : base' ≤ base) (h : PtrInv base tables ptrs) :
    PtrInv base' tables ptrs := by
  refine ⟨h.1, fun i hi => ⟨(h.2 i hi).1, fun j hj1 hj2 => ?_⟩⟩
  exact lt_of_le_of_lt hle ((h.2 i hi).2 j hj1 hj2)

theorem PtrInv_tail {base : Nat} {t : KeywordIndices} {ts : List KeywordIndices}
    {p : Nat} {ps : List Nat} (h : PtrInv base (t :: ts) (p :: ps)) :
    PtrInv base ts ps := by
  refine ⟨by simpa using h.1, fun i hi => ?_⟩
  have := h.2 (i + 1) (by simpa using hi)
  simpa using this

theorem PtrInv_cons {base : Nat} {t : KeywordIndices} {ts : List KeywordIndices}
    {p : Nat} {ps : List Nat}
    (hh : (t.docIds ≠ [] → p < t.docIds.length) ∧
      ∀ j, p < j → j < t.docIds.length → base < t.docIds.getD j 0)
    (h : PtrInv base ts ps) : PtrInv base (t :: ts) (p :: ps) := by
  refine ⟨by simpa using h.1, fun i hi => ?_⟩
  cases i with
  | zero => simpa using hh
  | succ i' =>
      have := h.2 i' (by simpa using hi)
      simpa using this

theorem mem_getD_of_mem {ds : List Nat} {d : Nat} (h : d ∈ ds) :
    ∃ j, j < ds.length ∧ ds.getD j 0 = d := by
  obtain ⟨j, hj, rfl⟩ := List.mem_iff_getElem.mp h
  exact ⟨j, hj, List.getD_eq_getElem ds 0 hj⟩

theorem innerScan_spec :
    ∀ (tables : List KeywordIndices) (ptrs : List Nat) (base : Nat),
      (∀ t ∈ tables, List.Pairwise (· < ·) t.docIds) →
      PtrInv base tables ptrs →
      ((∀ ptrs', innerScan tables ptrs base = .found ptrs' →
          ptrs'.length = tables.length ∧
          (∀ i, i < tables.length →
            ptrs'.getD i 0 < (tables.getD i default).docIds.length ∧
            (tables.getD i default).docIds.getD (ptrs'.getD i 0) 0 = base) ∧
          (∀ b', b' ≤ base → PtrInv b' tables ptrs')) ∧
       (∀ ptrs', innerScan tables ptrs base = .noMatch ptrs' →
          (∃ i, i < tables.length ∧ base ∉ (tables.getD i default).docIds) ∧
          ptrs'.length = tables.length ∧
          (∀ b', b' < base → PtrInv b' tables ptrs')) ∧
       (innerScan tables ptrs base = .stop →
          ∃ i, i < tables.length ∧
            ∀ d, d ≤ base → d ∉ (tables.getD i default).docIds))
  | [], ptrs, base, _, _ => by
      refine ⟨?_, ?_, ?_⟩
      · intro ptrs' heq
        simp only [innerScan] at heq
        cases heq
        exact ⟨rfl, fun i hi => absurd hi (by simp),
          fun b' _ => ⟨rfl, fun i hi => absurd hi (by simp)⟩⟩
      · intro ptrs' heq
        simp [innerScan] at heq
      · intro heq
        simp [innerScan] at heq
  | t :: ts, [], base, _, hinv => by
      have := hinv.1
      simp at this
  | t :: ts, p :: ps, base, hsorts, hinv => by
      have hsort : List.Pairwise (· < ·) t.docIds :=
        hsorts t (List.mem_cons_self _ _)
      have hhead := hinv.2 0 (by simp)
      simp only [List.getD_cons_zero] at hhead
      have hne : t.docIds = [] →
          searchIndexGo t.docIds 0 p base = (0, false) := by
        intro hnil; rw [hnil]; exact searchIndexGo_nil _ _
      by_cases hf : (searchIndexGo t.docIds 0 p base).2 = true
      · -- base found in the head row
        have hnonnil : t.docIds ≠ [] := by
          intro hnil
          rw [hne hnil] at hf
          simp at hf
        have hwin : p < t.docIds.length := hhead.1 hnonnil
        have hspec := (searchIndexGo_spec t.docIds p base hsort hwin).1 hf
        obtain ⟨hle, hlt, hgd⟩ := hspec
        have hrec := innerScan_spec ts ps base
          (fun u hu => hsorts u (List.mem_cons_of_mem _ hu)) (PtrInv_tail hinv)
        have hheadInv : ∀ b', b' ≤ base →
            ((t.docIds ≠ [] → (searchIndexGo t.docIds 0 p base).1 < t.docIds.length) ∧
              ∀ j, (searchIndexGo t.docIds 0 p base).1 < j → j < t.docIds.length →
                b' < t.docIds.getD j 0) := by
          intro b' hb'
          refine ⟨fun _ => hlt, fun j hj1 hj2 => ?_⟩
          rcases le_or_lt j p with hjp | hjp
          · have : t.docIds.getD (searchIndexGo t.docIds 0 p base).1 0 <
                t.docIds.getD j 0 := pairwise_lt_getD hsort hj1 hj2
            omega
          · have := hhead.2 j hjp hj2
            omega
        cases hrest : innerScan ts ps base with
        | stop =>
            refine ⟨?_, ?_, ?_⟩
            · intro ptrs' hcontra
              simp only [innerScan, hf, if_pos, hrest] at hcontra
              exact ScanResult.noConfusion hcontra
            · intro ptrs' hcontra
              simp only [innerScan, hf, if_pos, hrest] at hcontra
              exact ScanResult.noConfusion hcontra
            · intro _
              obtain ⟨i, hi, hall⟩ := hrec.2.2 hrest
              exact ⟨i + 1, by simpa using hi, by simpa using hall⟩
        | noMatch ps' =>
            refine ⟨?_, ?_, ?_⟩
            · intro ptrs' hcontra
              simp only [innerScan, hf, if_pos, hrest] at hcontra
              exact ScanResult.noConfusion hcontra
            · intro ptrs' heq
              simp only [innerScan, hf, if_pos, hrest] at heq
              cases heq
              obtain ⟨⟨i, hi, hmem⟩, hlen, hinv'⟩ := hrec.2.1 ps' hrest
              refine ⟨⟨i + 1, by simpa using hi, by simpa using hmem⟩,
                by simpa using hlen, ?_⟩
              intro b' hb'
              exact PtrInv_cons (hheadInv b' (le_of_lt hb')) (hinv' b' hb')
            · intro hcontra
              simp only [innerScan, hf, if_pos, hrest] at hcontra
              exact ScanResult.noConfusion hcontra
        | found ps' =>
            refine ⟨?_, ?_, ?_⟩
            · intro ptrs' heq
              simp only [innerScan, hf, if_pos, hrest] at heq
              cases heq
              obtain ⟨hlen, hpos, hinv'⟩ := hrec.1 ps' hrest
              refine ⟨by simpa using hlen, ?_, ?_⟩
              · intro i hi
                cases i with
                | zero =>
                    constructor
                    · simpa only [List.getD_cons_zero] using hlt
                    · simpa only [List.getD_cons_zero] using hgd
                | succ i' =>
                    have := hpos i' (by simpa using hi)
                    simpa using this
              · intro b' hb'
                exact PtrInv_cons (hheadInv b' hb') (hinv' b' hb')
            · intro ptrs' hcontra
              simp only [innerScan, hf, if_pos, hrest] at hcontra
              exact ScanResult.noConfusion hcontra
            · intro hcontra
              simp only [innerScan, hf, if_pos, hrest] at hcontra
              exact ScanResult.noConfusion hcontra
      · -- base not found in the head row
        have hf' : (searchIndexGo t.docIds 0 p base).2 = false := by
          revert hf
          cases (searchIndexGo t.docIds 0 p base).2 <;> simp
        by_cases hz : (searchIndexGo t.docIds 0 p base).1 = 0
        · -- insertion position 0: the whole scan stops
          refine ⟨?_, ?_, ?_⟩
          · intro ptrs' hcontra
            simp only [innerScan, hf', hz] at hcontra
            simp at hcontra
          · intro ptrs' hcontra
            simp only [innerScan, hf', hz] at hcontra
            simp at hcontra
          · intro _
            refine ⟨0, by simp, ?_⟩
            simp only [List.getD_cons_zero]
            intro d hd hdm
            rcases List.eq_nil_or_concat t.docIds with hnil | _
            · rw [hnil] at hdm; simp at hdm
            obtain ⟨j, hj, hjd⟩ := mem_getD_of_mem hdm
            have hnonnil : t.docIds ≠ [] := by
              intro hnil; rw [hnil] at hj; simp at hj
            have hwin : p < t.docIds.length := hhead.1 hnonnil
            have hspec := (searchIndexGo_spec t.docIds p base hsort hwin).2 hf'
            rcases le_or_lt j p with hjp | hjp
            · have := hspec.2.2 j (by omega) hjp
              omega
            · have := hhead.2 j hjp hj
              omega
        · -- insertion position ≥ 1: skip this candidate
          have hnonnil : t.docIds ≠ [] := by
            intro hnil
            rw [hne hnil] at hz
            simp at hz
          have hwin : p < t.docIds.length := hhead.1 hnonnil
          have hspec := (searchIndexGo_spec t.docIds p base hsort hwin).2 hf'
          obtain ⟨hub, hlow, hhigh⟩ := hspec
          refine ⟨?_, ?_, ?_⟩
          · intro ptrs' hcontra
            simp only [innerScan, hf', hz] at hcontra
            simp [hz] at hcontra
          · intro ptrs' heq
            simp only [innerScan, hf'] at heq
            rw [if_neg (by simp)] at heq
            rw [if_neg hz] at heq
            cases heq
            constructor
            · refine ⟨0, by simp, ?_⟩
              simp only [List.getD_cons_zero]
              intro hdm
              obtain ⟨j, hj, hjd⟩ := mem_getD_of_mem hdm
              rcases lt_or_le j (searchIndexGo t.docIds 0 p base).1 with hjp | hjp
              · have := hlow j hjp
                omega
              · rcases le_or_lt j p with hjpp | hjpp
                · have := hhigh j hjp hjpp
                  omega
                · have := hhead.2 j hjpp hj
                  omega
            · refine ⟨by simpa using hinv.1, ?_⟩
              intro b' hb'
              refine PtrInv_cons ⟨fun _ => by omega, ?_⟩
                (PtrInv_mono (le_of_lt hb') (PtrInv_tail hinv))
              intro j hj1 hj2
              have hjge : (searchIndexGo t.docIds 0 p base).1 ≤ j := by omega
              rcases le_or_lt j p with hjpp | hjpp
              · have := hhigh j hjge hjpp
                omega
              · have := hhead.2 j hjpp hj2
                omega
          · intro hcontra
            simp only [innerScan, hf', hz] at hcontra
            simp [hz] at hcontra

theorem getD_mem_of_lt {α : Type} {l : List α} {j : Nat} (d : α)
    (hj : j < l.length) : l.getD j d ∈ l := by
  rw [List.getD_eq_getElem l d hj]
  exact List.getElem_mem hj

theorem take_getD_le {ds : List Nat} (hs : List.Pairwise (· < ·) ds) {p0 : Nat}
    (hp0 : p0 < ds.length) : ∀ d ∈ ds.take (p0 + 1), d ≤ ds.getD p0 0 := by
  intro d hd
  obtain ⟨j, hj, rfl⟩ := List.mem_iff_getElem.mp hd
  have hjlen : j < ds.length := by
    have h' := hj; rw [List.length_take] at h'; omega
  have hjp : j ≤ p0 := by
    have h' := hj; rw [List.length_take] at h'; omega
  rw [List.getElem_take]
  rw [← List.getD_eq_getElem ds 0 hjlen]
  exact pairwise_le_getD hs hjp hp0

theorem filter_take_succ {ds : List Nat} (p : Nat → Bool) {p0 : Nat}
    (hp0 : p0 < ds.length) :
    (ds.take (p0 + 1)).filter p =
      (ds.take p0).filter p ++
        (if p (ds.getD p0 0) then [ds.getD p0 0] else []) := by
  rw [List.take_succ, List.getElem?_eq_getElem hp0]
  rw [List.filter_append]
  rw [List.getD_eq_getElem ds 0 hp0]
  congr 1
  simp only [List.filter]
  split
  · rename_i hcond
    rw [if_pos hcond]
  · rename_i hcond
    rw [if_neg (by simp [hcond])]

theorem inAllPostingLists_eq_true {tables : List KeywordIndices} {d : Nat} :
    inAllPostingLists tables d = true ↔ ∀ t ∈ tables, d ∈ t.docIds := by
  simp [inAllPostingLists, List.all_eq_true]

theorem lookupStep_filter (ctx : LookupCtx)
    (hmode : ctx.mode = .DocIdsIndex ∨ ctx.mode = .FrequenciesIndex)
    (hsort0 : List.Pairwise (· < ·) ctx.t0.docIds)
    (hsorts : ∀ t ∈ ctx.rest, List.Pairwise (· < ·) t.docIds)
    (p0 : Nat) (ptrs : List Nat) (hp0 : p0 < ctx.t0.docIds.length)
    (hinv : PtrInv (ctx.t0.docIds.getD p0 0) ctx.rest ptrs)
    (cont : List Nat → List IndexedDocument)
    (tailList : List IndexedDocument)
    (hcont : ∀ ptrs',
      (∀ b', b' < ctx.t0.docIds.getD p0 0 → PtrInv b' ctx.rest ptrs') →
      cont ptrs' = tailList)
    (htail : tailList =
      (((ctx.t0.docIds.take p0).filter
          (fun d => inAllPostingLists ctx.rest d &&
            restrictionOk ctx.restriction d)).reverse).map
        (fun d => buildFullDoc ctx d (lookupCursors ctx.table d))) :
    lookupStep ctx p0 ptrs cont =
      (((ctx.t0.docIds.take (p0 + 1)).filter
          (fun d => inAllPostingLists ctx.rest d &&
            restrictionOk ctx.restriction d)).reverse).map
        (fun d => buildFullDoc ctx d (lookupCursors ctx.table d)) := by
  have hscan := innerScan_spec ctx.rest ptrs (ctx.t0.docIds.getD p0 0) hsorts hinv
  unfold lookupStep
  by_cases hres : restrictionOk ctx.restriction (ctx.t0.docIds.getD p0 0) = true
  · rw [if_pos hres]
    cases hrest : innerScan ctx.rest ptrs (ctx.t0.docIds.getD p0 0) with
    | stop =>
        obtain ⟨i, hi, hall⟩ := hscan.2.2 hrest
        have h1 : (ctx.t0.docIds.take (p0 + 1)).filter
            (fun d => inAllPostingLists ctx.rest d &&
              restrictionOk ctx.restriction d) = [] := by
          rw [List.filter_eq_nil_iff]
          intro q hq
          have hqle := take_getD_le hsort0 hp0 q hq
          have hnotin := hall q hqle
          simp only [Bool.and_eq_true, not_and]
          intro hin _
          rw [inAllPostingLists_eq_true] at hin
          exact hnotin (hin _ (getD_mem_of_lt default hi))
        rw [h1]
        simp
    | noMatch ptrs' =>
        obtain ⟨⟨i, hi, hnotin⟩, _, hinv'⟩ := hscan.2.1 ptrs' hrest
        dsimp only
        rw [hcont ptrs' hinv', htail, filter_take_succ _ hp0]
        have hP : (inAllPostingLists ctx.rest (ctx.t0.docIds.getD p0 0) &&
            restrictionOk ctx.restriction (ctx.t0.docIds.getD p0 0)) = false := by
          have hfalse : inAllPostingLists ctx.rest (ctx.t0.docIds.getD p0 0)
              = false := by
            by_cases hcase : inAllPostingLists ctx.rest (ctx.t0.docIds.getD p0 0)
                = true
            · rw [inAllPostingLists_eq_true] at hcase
              exact absurd (hcase _ (getD_mem_of_lt default hi)) hnotin
            · revert hcase
              cases inAllPostingLists ctx.rest (ctx.t0.docIds.getD p0 0) <;> simp
          rw [hfalse]
          simp
        rw [hP]
        simp
    | found ptrs' =>
        obtain ⟨hlen, hpos, hinv'⟩ := hscan.1 ptrs' hrest
        dsimp only
        have hmodeNe : ¬ (ctx.mode = .LocationsIndex ∧
            numTokensWithLocations (ctx.table.take ctx.tokens.length)
              (p0 :: ptrs') ≠ ctx.tokens.length) := by
          rintro ⟨hLoc, _⟩
          rcases hmode with h | h <;> rw [h] at hLoc <;> cases hLoc
        rw [if_neg hmodeNe]
        rw [hcont ptrs' (fun b' hb' => hinv' b' (le_of_lt hb'))]
        rw [htail, filter_take_succ _ hp0]
        have hin : inAllPostingLists ctx.rest (ctx.t0.docIds.getD p0 0)
            = true := by
          rw [inAllPostingLists_eq_true]
          intro t ht
          obtain ⟨i, hi, rfl⟩ := List.mem_iff_getElem.mp ht
          obtain ⟨hwin, hgd⟩ := hpos i hi
          have h1 : ctx.rest[i] = ctx.rest.getD i default :=
            (List.getD_eq_getElem _ default hi).symm
          rw [h1, ← hgd]
          exact getD_mem hwin
        rw [hin, hres]
        simp only [Bool.and_self, if_pos]
        rw [List.reverse_append, List.map_append]
        have hcur : p0 :: ptrs' =
            lookupCursors ctx.table (ctx.t0.docIds.getD p0 0) := by
          unfold lookupCursors LookupCtx.table
          rw [List.map_cons]
          congr 1
          · exact (indexOf_eq_of_getD hsort0 hp0 rfl).symm
          · apply List.ext_getElem
            · rw [hlen, List.length_map]
            · intro i hi1 hi2
              rw [List.getElem_map]
              have hi : i < ctx.rest.length := by rwa [hlen] at hi1
              obtain ⟨hwin, hgd⟩ := hpos i hi
              have h1 : ctx.rest[i] = ctx.rest.getD i default :=
                (List.getD_eq_getElem _ default hi).symm
              have h2 : ptrs'[i] = ptrs'.getD i 0 :=
                (List.getD_eq_getElem _ 0 hi1).symm
              rw [h1, h2]
              exact (indexOf_eq_of_getD
                (hsorts _ (getD_mem_of_lt default hi)) hwin hgd).symm
        rw [hcur]
        simp
  · have hres' : restrictionOk ctx.restriction (ctx.t0.docIds.getD p0 0)
        = false := by
      revert hres
      cases restrictionOk ctx.restriction (ctx.t0.docIds.getD p0 0) <;> simp
    rw [if_neg (by rw [hres']; simp)]
    rw [hcont ptrs (fun b' hb' => PtrInv_mono (le_of_lt hb') hinv)]
    rw [htail, filter_take_succ _ hp0]
    have hcondF : (inAllPostingLists ctx.rest (ctx.t0.docIds.getD p0 0) &&
        restrictionOk ctx.restriction (ctx.t0.docIds.getD p0 0)) = false := by
      rw [hres']
      simp
    rw [hcondF]
    simp

theorem lookupLoop_filter_spec (ctx : LookupCtx)
    (hmode : ctx.mode = .DocIdsIndex ∨ ctx.mode = .FrequenciesIndex)
    (hsort0 : List.Pairwise (· < ·) ctx.t0.docIds)
    (hsorts : ∀ t ∈ ctx.rest, List.Pairwise (· < ·) t.docIds) :
    ∀ (p0 : Nat) (ptrs : List Nat), p0 < ctx.t0.docIds.length →
      PtrInv (ctx.t0.docIds.getD p0 0) ctx.rest ptrs →
      lookupLoop ctx p0 ptrs =
        (((ctx.t0.docIds.take (p0 + 1)).filter
            (fun d => inAllPostingLists ctx.rest d &&
              restrictionOk ctx.restriction d)).reverse).map
          (fun d => buildFullDoc ctx d (lookupCursors ctx.table d)) := by
  intro p0
  induction p0 with
  | zero =>
      intro ptrs hp0 hinv
      show lookupStep ctx 0 ptrs (fun _ => []) = _
      refine lookupStep_filter ctx hmode hsort0 hsorts 0 ptrs hp0 hinv _ []
        (fun _ _ => rfl) ?_
      simp
  | succ n ih =>
      intro ptrs hp0 hinv
      show lookupStep ctx (n + 1) ptrs (fun ptrs' => lookupLoop ctx n ptrs') = _
      refine lookupStep_filter ctx hmode hsort0 hsorts (n + 1) ptrs hp0 hinv _ _
        ?_ rfl
      intro ptrs' hinv'
      have hp0' : n < ctx.t0.docIds.length := by omega
      have hbase : ctx.t0.docIds.getD n 0 < ctx.t0.docIds.getD (n + 1) 0 :=
        pairwise_lt_getD hsort0 (by omega) hp0
      exact ih ptrs' hp0' (hinv' _ hbase)

theorem collectTables_length (table : List (String × KeywordIndices)) :
    ∀ (ks : List String) (ts : List KeywordIndices),
      collectTables table ks = some ts → ts.length = ks.length
  | [], ts, h => by
      simp only [collectTables, Option.some.injEq] at h
      rw [← h]
      rfl
  | k :: ks, ts, h => by
      simp only [collectTables] at h
      cases hg : alistGet table k with
      | none => rw [hg] at h; cases h
      | some t =>
          rw [hg] at h
          cases hc : collectTables table ks with
          | none => rw [hc] at h; cases h
          | some ts' =>
              rw [hc] at h
              simp only [Option.map_some', Option.some.injEq] at h
              rw [← h]
              simp [collectTables_length table ks ts' hc]

theorem collectTables_mem (table : List (String × KeywordIndices)) :
    ∀ (ks : List String) (ts : List KeywordIndices),
      collectTables table ks = some ts →
      ∀ t ∈ ts, ∃ k, alistGet table k = some t
  | [], ts, h => by
      simp only [collectTables, Option.some.injEq] at h
      rw [← h]
      intro t ht
      simp at ht
  | k :: ks, ts, h => by
      simp only [collectTables] at h
      cases hg : alistGet table k with
      | none => rw [hg] at h; cases h
      | some t0 =>
          rw [hg] at h
          cases hc : collectTables table ks with
          | none => rw [hc] at h; cases h
          | some ts' =>
              rw [hc] at h
              simp only [Option.map_some', Option.some.injEq] at h
              rw [← h]
              intro t ht
              rcases List.mem_cons.mp ht with rfl | ht'
              · exact ⟨k, hg⟩
              · exact collectTables_mem table ks ts' hc t ht'

theorem Lookup_eq_loop (indexer : Indexer) (lg : ℚ → ℚ)
    (tokens labels : List String) (restriction : Option (Nat → Bool))
    (t0 : KeywordIndices) (rest : List KeywordIndices)
    (htables : collectTables indexer.table (tokens ++ labels) = some (t0 :: rest))
    (hnum : indexer.numDocuments ≠ 0) :
    indexer.Lookup lg tokens labels restriction =
      (if t0.docIds.length = 0 then []
       else lookupLoop
        { mode := indexer.initOptions.IndexType
          bm25 := indexer.initOptions.BM25Parameters
          lg := lg
          tokens := tokens
          t0 := t0
          rest := rest
          docTokenLengths := indexer.docTokenLengths
          numDocuments := indexer.numDocuments
          avgDocLength := indexer.totalTokenLength / (indexer.numDocuments : ℚ)
          restriction := restriction }
        (t0.docIds.length - 1) (rest.map (fun t => t.docIds.length - 1))) := by
  unfold Indexer.Lookup
  rw [if_neg hnum, htables]

theorem map_docId_buildFullDoc (ctx : LookupCtx) (cur : Nat → List Nat) :
    ∀ l : List Nat,
      (l.map (fun d => buildFullDoc ctx d (cur d))).map IndexedDocument.DocId = l
  | [] => rfl
  | a :: t => by
      simp only [List.map_cons, map_docId_buildFullDoc ctx cur t]
      rfl

/-- C1: in DocIdsOnly or Frequencies mode, with every search key
(`tokens ++ labels`) resolving to a posting list, `Lookup` returns, in
strictly descending doc-id order, exactly the doc ids that occur in every
key's posting list and (when a restriction set is supplied) belong to it.
The sortedness hypothesis is the invariant established per C2, and
`numDocuments ≠ 0` holds in every state in which some key is present (a key
enters the table only through `AddDocument`, which makes `numDocuments`
positive). -/
theorem C1_lookup_intersection (indexer : Indexer) (lg : ℚ → ℚ)
    (tokens labels : List String) (restriction : Option (Nat → Bool))
    (tables : List KeywordIndices)
    (hmode : indexer.initOptions.IndexType = .DocIdsIndex ∨
      indexer.initOptions.IndexType = .FrequenciesIndex)
    (hsorted : ∀ p ∈ indexer.table, List.Pairwise (· < ·) p.2.docIds)
    (htables : collectTables indexer.table (tokens ++ labels) = some tables)
    (hne : tokens ++ labels ≠ [])
    (hnum : indexer.numDocuments ≠ 0) :
    (indexer.Lookup lg tokens labels restriction).map IndexedDocument.DocId =
      ((tables.headD default).docIds.filter
        (fun d => inAllPostingLists tables d &&
          restrictionOk restriction d)).reverse ∧
    List.Pairwise (· > ·)
      ((indexer.Lookup lg tokens labels restriction).map
        IndexedDocument.DocId) := by
  cases tables with
  | nil =>
      exfalso
      have hl := collectTables_length _ _ _ htables
      exact hne (List.length_eq_zero.mp hl.symm)
  | cons t0 rest =>
      have hsort0 : List.Pairwise (· < ·) t0.docIds := by
        obtain ⟨k, hk⟩ := collectTables_mem _ _ _ htables t0
          (List.mem_cons_self _ _)
        exact hsorted _ (alistGet_mem _ _ _ hk)
      have hsorts : ∀ t ∈ rest, List.Pairwise (· < ·) t.docIds := by
        intro t ht
        obtain ⟨k, hk⟩ := collectTables_mem _ _ _ htables t
          (List.mem_cons_of_mem _ ht)
        exact hsorted _ (alistGet_mem _ _ _ hk)
      rw [Lookup_eq_loop indexer lg tokens labels restriction t0 rest htables hnum]
      by_cases hz : t0.docIds.length = 0
      · rw [if_pos hz]
        have hnil : t0.docIds = [] := List.length_eq_zero.mp hz
        constructor
        · simp [hnil]
        · simp
      · rw [if_neg hz]
        have hinit : PtrInv (t0.docIds.getD (t0.docIds.length - 1) 0) rest
            (rest.map (fun t => t.docIds.length - 1)) := by
          refine ⟨by simp, fun i hi => ?_⟩
          have hgd : (rest.map (fun t => t.docIds.length - 1)).getD i 0 =
              (rest.getD i default).docIds.length - 1 := by
            rw [List.getD_eq_getElem _ 0 (by simpa using hi),
              List.getElem_map, List.getD_eq_getElem _ default hi]
          rw [hgd]
          constructor
          · intro hne'
            have : (rest.getD i default).docIds.length ≠ 0 := by
              intro h0
              exact hne' (List.length_eq_zero.mp h0)
            omega
          · intro j hj1 hj2
            omega
        have hloop := lookupLoop_filter_spec
          { mode := indexer.initOptions.IndexType
            bm25 := indexer.initOptions.BM25Parameters
            lg := lg
            tokens := tokens
            t0 := t0
            rest := rest
            docTokenLengths := indexer.docTokenLengths
            numDocuments := indexer.numDocuments
            avgDocLength := indexer.totalTokenLength / (indexer.numDocuments : ℚ)
            restriction := restriction }
          hmode hsort0 hsorts (t0.docIds.length - 1)
          (rest.map (fun t => t.docIds.length - 1))
          (by show t0.docIds.length - 1 < t0.docIds.length; omega) hinit
        rw [hloop]
        rw [map_docId_buildFullDoc]
        rw [Nat.sub_add_cancel (by omega), List.take_length]
        have hfc : t0.docIds.filter
            (fun d => inAllPostingLists rest d && restrictionOk restriction d) =
          t0.docIds.filter
            (fun d => inAllPostingLists (t0 :: rest) d &&
              restrictionOk restriction d) := by
          apply List.filter_congr
          intro d hd
          simp [inAllPostingLists, hd]
        rw [hfc]
        constructor
        · rfl
        · rw [List.pairwise_reverse]
          exact List.Pairwise.sublist (List.filter_sublist _) hsort0

/-- Witness for C1: a two-document Frequencies-mode index queried for the
shared keyword, without restriction. -/
theorem C1_lookup_intersection_witness :
    ((((Indexer.Init ⟨.FrequenciesIndex, ⟨2, 1⟩⟩).AddDocument
        ⟨1, 1, [⟨"x", 1, []⟩]⟩).AddDocument ⟨2, 1, [⟨"x", 1, []⟩]⟩).Lookup
        (fun _ => 1) ["x"] [] none).map IndexedDocument.DocId =
      ((([⟨[1, 2], [1, 1], []⟩] :
          List KeywordIndices).headD default).docIds.filter
        (fun d => inAllPostingLists [⟨[1, 2], [1, 1], []⟩] d &&
          restrictionOk none d)).reverse ∧
    List.Pairwise (· > ·)
      (((((Indexer.Init ⟨.FrequenciesIndex, ⟨2, 1⟩⟩).AddDocument
        ⟨1, 1, [⟨"x", 1, []⟩]⟩).AddDocument ⟨2, 1, [⟨"x", 1, []⟩]⟩).Lookup
        (fun _ => 1) ["x"] [] none).map IndexedDocument.DocId) :=
  C1_lookup_intersection _ (fun _ => 1) ["x"] [] none [⟨[1, 2], [1, 1], []⟩]
    (Or.inr (by decide)) (by decide) (by decide) (by decide) (by decide)

theorem cursors_eq_of_found (ctx : LookupCtx)
    (hsort0 : List.Pairwise (· < ·) ctx.t0.docIds)
    (hsorts : ∀ t ∈ ctx.rest, List.Pairwise (· < ·) t.docIds)
    {p0 : Nat} (hp0 : p0 < ctx.t0.docIds.length)
    {ptrs' : List Nat} (hlen : ptrs'.length = ctx.rest.length)
    (hpos : ∀ i < ctx.rest.length,
      ptrs'.getD i 0 < (ctx.rest.getD i default).docIds.length ∧
      (ctx.rest.getD i default).docIds.getD (ptrs'.getD i 0) 0 =
        ctx.t0.docIds.getD p0 0) :
    p0 :: ptrs' = lookupCursors ctx.table (ctx.t0.docIds.getD p0 0) := by
  unfold lookupCursors LookupCtx.table
  rw [List.map_cons]
  congr 1
  · exact (indexOf_eq_of_getD hsort0 hp0 rfl).symm
  · apply List.ext_getElem
    · rw [hlen, List.length_map]
    · intro i hi1 hi2
      rw [List.getElem_map]
      have hi : i < ctx.rest.length := by rwa [hlen] at hi1
      obtain ⟨hwin, hgd⟩ := hpos i hi
      have h1 : ctx.rest[i] = ctx.rest.getD i default :=
        (List.getD_eq_getElem _ default hi).symm
      have h2 : ptrs'[i] = ptrs'.getD i 0 :=
        (List.getD_eq_getElem _ 0 hi1).symm
      rw [h1, h2]
      exact (indexOf_eq_of_getD
        (hsorts _ (getD_mem_of_lt default hi)) hwin hgd).symm

theorem lookupStep_mem (ctx : LookupCtx)
    (hsort0 : List.Pairwise (· < ·) ctx.t0.docIds)
    (hsorts : ∀ t ∈ ctx.rest, List.Pairwise (· < ·) t.docIds)
    (p0 : Nat) (ptrs : List Nat) (hp0 : p0 < ctx.t0.docIds.length)
    (hinv : PtrInv (ctx.t0.docIds.getD p0 0) ctx.rest ptrs)
    (cont : List Nat → List IndexedDocument)
    (hcont : ∀ ptrs',
      (∀ b', b' < ctx.t0.docIds.getD p0 0 → PtrInv b' ctx.rest ptrs') →
      ∀ doc ∈ cont ptrs', ∃ d,
        (ctx.mode = .LocationsIndex ∧
          numTokensWithLocations (ctx.table.take ctx.tokens.length)
            (lookupCursors ctx.table d) ≠ ctx.tokens.length ∧
          doc = bareDoc d) ∨
        (doc = buildFullDoc ctx d (lookupCursors ctx.table d) ∧
          (ctx.mode = .LocationsIndex →
            numTokensWithLocations (ctx.table.take ctx.tokens.length)
              (lookupCursors ctx.table d) = ctx.tokens.length))) :
    ∀ doc ∈ lookupStep ctx p0 ptrs cont, ∃ d,
      (ctx.mode = .LocationsIndex ∧
        numTokensWithLocations (ctx.table.take ctx.tokens.length)
          (lookupCursors ctx.table d) ≠ ctx.tokens.length ∧
        doc = bareDoc d) ∨
      (doc = buildFullDoc ctx d (lookupCursors ctx.table d) ∧
        (ctx.mode = .LocationsIndex →
          numTokensWithLocations (ctx.table.take ctx.tokens.length)
            (lookupCursors ctx.table d) = ctx.tokens.length)) := by
  have hscan := innerScan_spec ctx.rest ptrs (ctx.t0.docIds.getD p0 0) hsorts hinv
  intro doc hdoc
  unfold lookupStep at hdoc
  by_cases hres : restrictionOk ctx.restriction (ctx.t0.docIds.getD p0 0) = true
  · rw [if_pos hres] at hdoc
    cases hrest : innerScan ctx.rest ptrs (ctx.t0.docIds.getD p0 0) with
    | stop =>
        rw [hrest] at hdoc
        simp at hdoc
    | noMatch ptrs' =>
        rw [hrest] at hdoc
        obtain ⟨_, _, hinv'⟩ := hscan.2.1 ptrs' hrest
        exact hcont ptrs' hinv' doc hdoc
    | found ptrs' =>
        rw [hrest] at hdoc
        obtain ⟨hlen, hpos, hinv'⟩ := hscan.1 ptrs' hrest
        have hcur := cursors_eq_of_found ctx hsort0 hsorts hp0 hlen hpos
        dsimp only at hdoc
        by_cases hdeg : ctx.mode = .LocationsIndex ∧
            numTokensWithLocations (ctx.table.take ctx.tokens.length)
              (p0 :: ptrs') ≠ ctx.tokens.length
        · rw [if_pos hdeg] at hdoc
          rcases List.mem_singleton.mp hdoc with rfl
          refine ⟨ctx.t0.docIds.getD p0 0, Or.inl ⟨hdeg.1, ?_, rfl⟩⟩
          rw [← hcur]
          exact hdeg.2
        · rw [if_neg hdeg] at hdoc
          rcases List.mem_cons.mp hdoc with rfl | hdoc'
          · refine ⟨ctx.t0.docIds.getD p0 0, Or.inr ⟨?_, ?_⟩⟩
            · rw [← hcur]
            · intro hLoc
              rw [← hcur]
              by_cases hn : numTokensWithLocations
                  (ctx.table.take ctx.tokens.length) (p0 :: ptrs')
                    = ctx.tokens.length
              · exact hn
              · exact absurd ⟨hLoc, hn⟩ hdeg
          · exact hcont ptrs' (fun b' hb' => hinv' b' (le_of_lt hb')) doc hdoc'
  · rw [if_neg hres] at hdoc
    exact hcont ptrs (fun b' hb' => PtrInv_mono (le_of_lt hb') hinv) doc hdoc

theorem lookupLoop_mem_spec (ctx : LookupCtx)
    (hsort0 : List.Pairwise (· < ·) ctx.t0.docIds)
    (hsorts : ∀ t ∈ ctx.rest, List.Pairwise (· < ·) t.docIds) :
    ∀ (p0 : Nat) (ptrs : List Nat), p0 < ctx.t0.docIds.length →
      PtrInv (ctx.t0.docIds.getD p0 0) ctx.rest ptrs →
      ∀ doc ∈ lookupLoop ctx p0 ptrs, ∃ d,
        (ctx.mode = .LocationsIndex ∧
          numTokensWithLocations (ctx.table.take ctx.tokens.length)
            (lookupCursors ctx.table d) ≠ ctx.tokens.length ∧
          doc = bareDoc d) ∨
        (doc = buildFullDoc ctx d (lookupCursors ctx.table d) ∧
          (ctx.mode = .LocationsIndex →
            numTokensWithLocations (ctx.table.take ctx.tokens.length)
              (lookupCursors ctx.table d) = ctx.tokens.length)) := by
  intro p0
  induction p0 with
  | zero =>
      intro ptrs hp0 hinv
      exact lookupStep_mem ctx hsort0 hsorts 0 ptrs hp0 hinv _
        (fun _ _ doc hdoc => by simp at hdoc)
  | succ n ih =>
      intro ptrs hp0 hinv
      refine lookupStep_mem ctx hsort0 hsorts (n + 1) ptrs hp0 hinv _ ?_
      intro ptrs' hinv' doc hdoc
      have hp0' : n < ctx.t0.docIds.length := by omega
      have hbase : ctx.t0.docIds.getD n 0 < ctx.t0.docIds.getD (n + 1) 0 :=
        pairwise_lt_getD hsort0 (by omega) hp0
      exact ih ptrs' hp0' (hinv' _ hbase) doc hdoc

theorem bm25_foldl_eq_sum (ctx : LookupCtx) (dl : ℚ) :
    ∀ (pairs : List (KeywordIndices × Nat)) (acc : ℚ),
      pairs.foldl (fun a tp => a + bm25Term ctx dl tp.1 tp.2) acc =
        acc + (pairs.map (fun tp => bm25Term ctx dl tp.1 tp.2)).sum
  | [], acc => by simp
  | tp :: rest, acc => by
      simp only [List.foldl_cons, List.map_cons, List.sum_cons]
      rw [bm25_foldl_eq_sum ctx dl rest]
      ring

theorem bm25Of_eq_sum (ctx : LookupCtx) (dl : ℚ)
    (pairs : List (KeywordIndices × Nat)) :
    bm25Of ctx dl pairs =
      (pairs.map (fun tp => bm25Term ctx dl tp.1 tp.2)).sum := by
  unfold bm25Of
  rw [bm25_foldl_eq_sum ctx dl pairs 0]
  ring

theorem take_zip_map {β γ : Type} (f : β → γ) :
    ∀ (l : List β) (n : Nat),
      (l.take n).zip (l.map f) = (l.take n).map (fun x => (x, f x))
  | [], n => by simp
  | b :: t, 0 => by simp
  | b :: t, n + 1 => by
      simp only [List.take_succ_cons, List.map_cons, List.zip_cons_cons]
      rw [take_zip_map f t n]

theorem buildFullDoc_bm25 (ctx : LookupCtx) (d : Nat)
    (hmode : ctx.mode = .FrequenciesIndex ∨ ctx.mode = .LocationsIndex) :
    (buildFullDoc ctx d (lookupCursors ctx.table d)).BM25 =
      bm25Spec ctx.lg ctx.bm25 ctx.numDocuments ctx.avgDocLength
        ((alistGet ctx.docTokenLengths d).getD 0) ctx.mode
        (ctx.table.take ctx.tokens.length) d := by
  unfold buildFullDoc
  dsimp only
  rw [if_pos hmode.symm]
  unfold lookupCursors
  rw [take_zip_map]
  rw [bm25Of_eq_sum]
  unfold bm25Spec
  rw [List.map_map]
  rfl

theorem numTokensWithLocations_cursors (tables : List KeywordIndices)
    (n : Nat) (d : Nat) (hn : n ≤ tables.length) :
    (numTokensWithLocations (tables.take n) (lookupCursors tables d) = n ↔
      ∀ t ∈ tables.take n,
        0 < (t.locations.getD (t.docIds.indexOf d) []).length) := by
  unfold numTokensWithLocations lookupCursors
  rw [take_zip_map]
  rw [← List.countP_eq_length_filter, List.countP_map]
  have hlen : (tables.take n).length = n := by
    rw [List.length_take]
    omega
  have hiff := List.countP_eq_length
    (p := ((fun tp => decide (0 < ((tp : KeywordIndices × Nat).1.locations.getD
      tp.2 []).length)) ∘ fun x => (x, List.indexOf d x.docIds)))
    (l := tables.take n)
  rw [hlen] at hiff
  rw [hiff]
  constructor
  · intro h t ht
    have := h t ht
    simpa using this
  · intro h t ht
    simpa using h t ht

/-- C3 (amended): for every document returned by `Lookup` in Frequencies or
Locations mode, if (in Locations mode) every token key's stored locations
array at the document's cursor is non-empty, the returned BM25 equals the
spec-side sum `bm25Spec` over the token keys (labels excluded) — the sum of
`log2(N/df_t + 1) * f_t * (k1+1) / (f_t + k1*(1 - b + b*dl/avgdl))` over
the token keys with `df_t > 0`, `f_t > 0`, `avgdl ≠ 0`; but a
Locations-mode document emitted degenerately (some token key with an empty
locations array at its cursor) carries `BM25 = 0`, not the sum. -/
theorem C3_amended_bm25 (indexer : Indexer) (lg : ℚ → ℚ)
    (tokens labels : List String) (restriction : Option (Nat → Bool))
    (tables : List KeywordIndices)
    (hmode : indexer.initOptions.IndexType = .FrequenciesIndex ∨
      indexer.initOptions.IndexType = .LocationsIndex)
    (hsorted : ∀ p ∈ indexer.table, List.Pairwise (· < ·) p.2.docIds)
    (htables : collectTables indexer.table (tokens ++ labels) = some tables)
    (hnum : indexer.numDocuments ≠ 0) :
    ∀ doc ∈ indexer.Lookup lg tokens labels restriction,
      ((indexer.initOptions.IndexType = .LocationsIndex →
          ∀ t ∈ tables.take tokens.length,
            0 < (t.locations.getD (t.docIds.indexOf doc.DocId) []).length) →
        doc.BM25 = bm25Spec lg indexer.initOptions.BM25Parameters
          indexer.numDocuments
          (indexer.totalTokenLength / (indexer.numDocuments : ℚ))
          ((alistGet indexer.docTokenLengths doc.DocId).getD 0)
          indexer.initOptions.IndexType (tables.take tokens.length)
          doc.DocId) ∧
      (indexer.initOptions.IndexType = .LocationsIndex →
        (∃ t ∈ tables.take tokens.length,
          (t.locations.getD (t.docIds.indexOf doc.DocId) []).length = 0) →
        doc.BM25 = 0) := by
  cases tables with
  | nil =>
      intro doc hdoc
      exfalso
      unfold Indexer.Lookup at hdoc
      rw [if_neg hnum, htables] at hdoc
      simp at hdoc
  | cons t0 rest =>
      have hsort0 : List.Pairwise (· < ·) t0.docIds := by
        obtain ⟨k, hk⟩ := collectTables_mem _ _ _ htables t0
          (List.mem_cons_self _ _)
        exact hsorted _ (alistGet_mem _ _ _ hk)
      have hsorts : ∀ t ∈ rest, List.Pairwise (· < ·) t.docIds := by
        intro t ht
        obtain ⟨k, hk⟩ := collectTables_mem _ _ _ htables t
          (List.mem_cons_of_mem _ ht)
        exact hsorted _ (alistGet_mem _ _ _ hk)
      have hlen := collectTables_length _ _ _ htables
      have htok_le : tokens.length ≤ (t0 :: rest).length := by
        rw [hlen, List.length_append]
        omega
      intro doc hdoc
      rw [Lookup_eq_loop indexer lg tokens labels restriction t0 rest
        htables hnum] at hdoc
      by_cases hz : t0.docIds.length = 0
      · rw [if_pos hz] at hdoc
        simp at hdoc
      · rw [if_neg hz] at hdoc
        have hinit : PtrInv (t0.docIds.getD (t0.docIds.length - 1) 0) rest
            (rest.map (fun t => t.docIds.length - 1)) := by
          refine ⟨by simp, fun i hi => ?_⟩
          have hgd : (rest.map (fun t => t.docIds.length - 1)).getD i 0 =
              (rest.getD i default).docIds.length - 1 := by
            rw [List.getD_eq_getElem _ 0 (by simpa using hi),
              List.getElem_map, List.getD_eq_getElem _ default hi]
          rw [hgd]
          constructor
          · intro hne'
            have : (rest.getD i default).docIds.length ≠ 0 := by
              intro h0
              exact hne' (List.length_eq_zero.mp h0)
            omega
          · intro j hj1 hj2
            omega
        have hmem := lookupLoop_mem_spec
          { mode := indexer.initOptions.IndexType
            bm25 := indexer.initOptions.BM25Parameters
            lg := lg
            tokens := tokens
            t0 := t0
            rest := rest
            docTokenLengths := indexer.docTokenLengths
            numDocuments := indexer.numDocuments
            avgDocLength := indexer.totalTokenLength / (indexer.numDocuments : ℚ)
            restriction := restriction }
          hsort0 hsorts (t0.docIds.length - 1)
          (rest.map (fun t => t.docIds.length - 1))
          (by show t0.docIds.length - 1 < t0.docIds.length; omega) hinit doc hdoc
        obtain ⟨d, hcase⟩ := hmem
        rcases hcase with ⟨hLoc, hcount, rfl⟩ | ⟨rfl, hfull⟩
        · constructor
          · intro hpos'
            exfalso
            apply hcount
            exact (numTokensWithLocations_cursors (t0 :: rest) tokens.length d
              htok_le).mpr (fun t ht => hpos' hLoc t ht)
          · intro _ _
            rfl
        · constructor
          · intro _
            exact buildFullDoc_bm25 _ d hmode
          · intro hLoc hex
            exfalso
            obtain ⟨t, ht, hempty⟩ := hex
            have hcount := hfull hLoc
            have hall := (numTokensWithLocations_cursors (t0 :: rest)
              tokens.length d htok_le).mp hcount
            have hpos2 : 0 < (t.locations.getD (t.docIds.indexOf d) []).length :=
              hall t ht
            have hempty2 : (t.locations.getD (t.docIds.indexOf d) []).length = 0 :=
              hempty
            omega

/-- C3 (counterexample to the claim as stated): in Locations mode, a document
matched by every search key but whose stored locations array for one token
key is empty is returned with `BM25 = 0`, while the claimed formula sum over
the token keys evaluates to `1` on the very same state (with `log2` read at
whole-number points, where `log2 2 = 1`): the claimed equality fails for a
returned document. -/
theorem C3_counterexample :
    (((Indexer.Init ⟨.LocationsIndex, ⟨2, 1⟩⟩).AddDocument
        ⟨1, 1, [⟨"a", 1, [0]⟩, ⟨"b", 0, []⟩]⟩).Lookup (fun _ => 1)
        ["a", "b"] [] none).map (fun doc => (doc.DocId, doc.BM25)) = [(1, 0)] ∧
    bm25Spec (fun _ => 1) ⟨2, 1⟩ 1 ((1 : ℚ) / (1 : ℚ)) 1 .LocationsIndex
      [⟨[1], [], [[0]]⟩, ⟨[1], [], [[]]⟩] 1 = 1 ∧
    (0 : ℚ) ≠ 1 := by
  refine ⟨by decide, ?_, by norm_num⟩
  norm_num [bm25Spec, List.indexOf_cons_self, List.getD]

theorem C3_amended_bm25_witness :
    ((((Indexer.Init ⟨.FrequenciesIndex, ⟨2, 1⟩⟩).AddDocument
        ⟨1, 1, [⟨"x", 1, []⟩]⟩).AddDocument ⟨2, 1, [⟨"x", 1, []⟩]⟩).Lookup
        (fun _ => 1) ["x"] [] none).headD default ∈
      (((Indexer.Init ⟨.FrequenciesIndex, ⟨2, 1⟩⟩).AddDocument
        ⟨1, 1, [⟨"x", 1, []⟩]⟩).AddDocument ⟨2, 1, [⟨"x", 1, []⟩]⟩).Lookup
        (fun _ => 1) ["x"] [] none ∧
    (((((Indexer.Init ⟨.FrequenciesIndex, ⟨2, 1⟩⟩).AddDocument
        ⟨1, 1, [⟨"x", 1, []⟩]⟩).AddDocument ⟨2, 1, [⟨"x", 1, []⟩]⟩).Lookup
        (fun _ => 1) ["x"] [] none).headD default).BM25 =
      bm25Spec (fun _ => 1)
        (((Indexer.Init ⟨.FrequenciesIndex, ⟨2, 1⟩⟩).AddDocument
          ⟨1, 1, [⟨"x", 1, []⟩]⟩).AddDocument
          ⟨2, 1, [⟨"x", 1, []⟩]⟩).initOptions.BM25Parameters
        (((Indexer.Init ⟨.FrequenciesIndex, ⟨2, 1⟩⟩).AddDocument
          ⟨1, 1, [⟨"x", 1, []⟩]⟩).AddDocument
          ⟨2, 1, [⟨"x", 1, []⟩]⟩).numDocuments
        ((((Indexer.Init ⟨.FrequenciesIndex, ⟨2, 1⟩⟩).AddDocument
          ⟨1, 1, [⟨"x", 1, []⟩]⟩).AddDocument
          ⟨2, 1, [⟨"x", 1, []⟩]⟩).totalTokenLength /
          (((((Indexer.Init ⟨.FrequenciesIndex, ⟨2, 1⟩⟩).AddDocument
            ⟨1, 1, [⟨"x", 1, []⟩]⟩).AddDocument
            ⟨2, 1, [⟨"x", 1, []⟩]⟩).numDocuments : Nat) : ℚ))
        ((alistGet (((Indexer.Init ⟨.FrequenciesIndex, ⟨2, 1⟩⟩).AddDocument
          ⟨1, 1, [⟨"x", 1, []⟩]⟩).AddDocument
          ⟨2, 1, [⟨"x", 1, []⟩]⟩).docTokenLengths
          (((((Indexer.Init ⟨.FrequenciesIndex, ⟨2, 1⟩⟩).AddDocument
            ⟨1, 1, [⟨"x", 1, []⟩]⟩).AddDocument ⟨2, 1, [⟨"x", 1, []⟩]⟩).Lookup
            (fun _ => 1) ["x"] [] none).headD default).DocId).getD 0)
        (((Indexer.Init ⟨.FrequenciesIndex, ⟨2, 1⟩⟩).AddDocument
          ⟨1, 1, [⟨"x", 1, []⟩]⟩).AddDocument
          ⟨2, 1, [⟨"x", 1, []⟩]⟩).initOptions.IndexType
        (([⟨[1, 2], [1, 1], []⟩] : List KeywordIndices).take
          (["x"] : List String).length)
        (((((Indexer.Init ⟨.FrequenciesIndex, ⟨2, 1⟩⟩).AddDocument
          ⟨1, 1, [⟨"x", 1, []⟩]⟩).AddDocument ⟨2, 1, [⟨"x", 1, []⟩]⟩).Lookup
          (fun _ => 1) ["x"] [] none).headD default).DocId := by
  have hmap : ((((Indexer.Init ⟨.FrequenciesIndex, ⟨2, 1⟩⟩).AddDocument
      ⟨1, 1, [⟨"x", 1, []⟩]⟩).AddDocument ⟨2, 1, [⟨"x", 1, []⟩]⟩).Lookup
      (fun _ => 1) ["x"] [] none).map IndexedDocument.DocId = [2, 1] := by decide
  have hmem : ((((Indexer.Init ⟨.FrequenciesIndex, ⟨2, 1⟩⟩).AddDocument
      ⟨1, 1, [⟨"x", 1, []⟩]⟩).AddDocument ⟨2, 1, [⟨"x", 1, []⟩]⟩).Lookup
      (fun _ => 1) ["x"] [] none).headD default ∈
      (((Indexer.Init ⟨.FrequenciesIndex, ⟨2, 1⟩⟩).AddDocument
      ⟨1, 1, [⟨"x", 1, []⟩]⟩).AddDocument ⟨2, 1, [⟨"x", 1, []⟩]⟩).Lookup
      (fun _ => 1) ["x"] [] none := by
    cases hl : (((Indexer.Init ⟨.FrequenciesIndex, ⟨2, 1⟩⟩).AddDocument
        ⟨1, 1, [⟨"x", 1, []⟩]⟩).AddDocument ⟨2, 1, [⟨"x", 1, []⟩]⟩).Lookup
        (fun _ => 1) ["x"] [] none with
    | nil => rw [hl] at hmap; simp at hmap
    | cons a t => exact List.mem_cons_self _ _
  refine ⟨hmem, ?_⟩
  exact (C3_amended_bm25 _ (fun _ => 1) ["x"] [] none [⟨[1, 2], [1, 1], []⟩]
    (Or.inl (by decide)) (by decide) (by decide) (by decide) _ hmem).1
    (fun hloc => absurd hloc (by decide))

theorem AbsInt_nonneg (a : Int) : 0 ≤ AbsInt a := by
  unfold AbsInt
  split <;> omega

theorem getD_set_self {α : Type} {l : List α} {t : Nat} (v d : α)
    (h : t < l.length) : (l.set t v).getD t d = v := by
  rw [List.getD_eq_getElem _ _ (by simpa using h)]
  simp

theorem getD_set_ne {α : Type} {l : List α} {t t' : Nat} (v d : α)
    (h : t ≠ t') : (l.set t v).getD t' d = l.getD t' d := by
  by_cases h' : t' < l.length
  · rw [List.getD_eq_getElem _ _ (by simpa using h'), List.getD_eq_getElem _ _ h']
    exact List.getElem_set_ne h _
  · rw [List.getD_eq_default _ _ (by simp; omega), List.getD_eq_default _ _ (by omega)]

theorem getD_map_const {α β : Type} (l : List α) (c d : β) {t : Nat}
    (h : t < l.length) : (l.map (fun _ => c)).getD t d = c := by
  rw [List.getD_eq_getElem _ _ (by simpa using h)]
  simp

theorem advanceINextAux_lt (nl : List Int) (cl : Int) :
    ∀ (fuel iNext : Nat), iNext < nl.length →
      advanceINextAux nl cl iNext fuel < nl.length
  | 0, _, h => h
  | fuel + 1, iNext, h => by
      simp only [advanceINextAux]
      split
      · next hc => exact advanceINextAux_lt nl cl fuel (iNext + 1) hc.1
      · exact h

theorem advanceINext_lt {nl : List Int} (cl : Int) {iNext : Nat}
    (h : iNext < nl.length) : advanceINext nl cl iNext < nl.length :=
  advanceINextAux_lt nl cl _ iNext h

theorem proximityUpdate_eq (tokLen : Int) (curLocs curMV nl : List Int)
    (st : List Int × List Nat) (f t : Nat) :
    proximityUpdate tokLen curLocs curMV nl st f t =
      if t < nl.length then
        if st.1.getD t 0 = -1 ∨
            curMV.getD f 0 + AbsInt (nl.getD t 0 - curLocs.getD f 0 - tokLen) <
              st.1.getD t 0 then
          (st.1.set t (curMV.getD f 0 +
            AbsInt (nl.getD t 0 - curLocs.getD f 0 - tokLen)), st.2.set t f)
        else st
      else st := rfl

theorem proximityUpdate_inv {tokLen : Int}
    {curLocs curMV nl : List Int} {st : List Int × List Nat} {f : Nat} (t : Nat)
    (hf : f < curLocs.length) (hfv : curMV.getD f 0 ≠ -1)
    (hst : LayerInv tokLen curLocs curMV nl st) :
    LayerInv tokLen curLocs curMV nl
      (proximityUpdate tokLen curLocs curMV nl st f t) := by
  obtain ⟨h1, h2, h3⟩ := hst
  rw [proximityUpdate_eq]
  by_cases ht : t < nl.length
  · rw [if_pos ht]
    split
    · refine ⟨by simpa using h1, by simpa using h2, ?_⟩
      intro t' ht' hne
      by_cases heq : t = t'
      · subst heq
        refine ⟨f, hf, hfv, ?_, ?_⟩
        · exact getD_set_self f 0 (by omega)
        · exact getD_set_self _ 0 (by omega)
      · rw [getD_set_ne _ _ heq] at hne
        obtain ⟨f', hr1, hr2, hr3, hr4⟩ := h3 t' ht' hne
        refine ⟨f', hr1, hr2, ?_, ?_⟩
        · rw [getD_set_ne _ _ heq]
          exact hr3
        · rw [getD_set_ne _ _ heq]
          exact hr4
    · exact ⟨h1, h2, h3⟩
  · rw [if_neg ht]
    exact ⟨h1, h2, h3⟩

theorem proximityUpdate_ne_neg {tokLen : Int}
    {curLocs curMV nl : List Int} {st : List Int × List Nat} {f t t' : Nat}
    (hfv : 0 ≤ curMV.getD f 0)
    (hne : st.1.getD t' 0 ≠ -1) :
    (proximityUpdate tokLen curLocs curMV nl st f t).1.getD t' 0 ≠ -1 := by
  rw [proximityUpdate_eq]
  by_cases ht : t < nl.length
  · rw [if_pos ht]
    split
    · by_cases heq : t = t'
      · subst heq
        by_cases hlen : t < st.1.length
        · rw [getD_set_self _ 0 hlen]
          have := AbsInt_nonneg (nl.getD t 0 - curLocs.getD f 0 - tokLen)
          omega
        · rw [List.getD_eq_default _ _ (by simp; omega)]
          omega
      · rw [getD_set_ne _ _ heq]
        exact hne
    · exact hne
  · rw [if_neg ht]
    exact hne

theorem proximityUpdate_sets {tokLen : Int}
    {curLocs curMV nl : List Int} {st : List Int × List Nat} {f t : Nat}
    (hfv : 0 ≤ curMV.getD f 0) (ht : t < nl.length)
    (hlen : st.1.length = nl.length) :
    (proximityUpdate tokLen curLocs curMV nl st f t).1.getD t 0 ≠ -1 := by
  rw [proximityUpdate_eq]
  rw [if_pos ht]
  split
  · rw [getD_set_self _ 0 (by omega)]
    have := AbsInt_nonneg (nl.getD t 0 - curLocs.getD f 0 - tokLen)
    omega
  · next hrel =>
      push_neg at hrel
      exact hrel.1

theorem layerLoop_inv (tokLen : Int) (curLocs curMV nl : List Int)
    (hnn : ∀ fv : Nat, curMV.getD fv 0 ≠ -1 → 0 ≤ curMV.getD fv 0) :
    ∀ (items : List (Nat × Int)) (iNext : Nat) (st : List Int × List Nat),
      (∀ p ∈ items, p.1 < curLocs.length) →
      LayerInv tokLen curLocs curMV nl st →
      LayerInv tokLen curLocs curMV nl
        (layerLoop tokLen curLocs curMV nl items iNext st) ∧
      ∀ t, st.1.getD t 0 ≠ -1 →
        (layerLoop tokLen curLocs curMV nl items iNext st).1.getD t 0 ≠ -1
  | [], _, st, _, hst => ⟨hst, fun _ h => h⟩
  | (i, loc) :: rest, iNext, st, hitems, hst => by
      rw [layerLoop]
      by_cases hguard : curMV.getD i 0 = -1
      · rw [if_pos hguard]
        exact layerLoop_inv tokLen curLocs curMV nl hnn rest iNext st
          (fun p hp => hitems p (List.mem_cons_of_mem _ hp)) hst
      · rw [if_neg hguard]
        have hi : i < curLocs.length := hitems (i, loc) (List.mem_cons_self _ _)
        have h0 : 0 ≤ curMV.getD i 0 := hnn i hguard
        have hst1 := proximityUpdate_inv (advanceINext nl loc iNext) hi hguard hst
        have hst2 := proximityUpdate_inv (advanceINext nl loc iNext + 1) hi hguard hst1
        have ih := layerLoop_inv tokLen curLocs curMV nl hnn rest
          (advanceINext nl loc iNext) _
          (fun p hp => hitems p (List.mem_cons_of_mem _ hp)) hst2
        exact ⟨ih.1, fun t ht =>
          ih.2 t (proximityUpdate_ne_neg h0 (proximityUpdate_ne_neg h0 ht))⟩

theorem layerLoop_nonvac (tokLen : Int) (curLocs curMV nl : List Int)
    (hnn : ∀ fv : Nat, curMV.getD fv 0 ≠ -1 → 0 ≤ curMV.getD fv 0) :
    ∀ (items : List (Nat × Int)) (iNext : Nat) (st : List Int × List Nat),
      (∀ p ∈ items, p.1 < curLocs.length) →
      LayerInv tokLen curLocs curMV nl st →
      iNext < nl.length →
      (∃ p ∈ items, curMV.getD p.1 0 ≠ -1) →
      ∃ t, t < nl.length ∧
        (layerLoop tokLen curLocs curMV nl items iNext st).1.getD t 0 ≠ -1
  | [], _, _, _, _, _, hw => by
      obtain ⟨p, hp, _⟩ := hw
      exact absurd hp (List.not_mem_nil _)
  | (i, loc) :: rest, iNext, st, hitems, hst, hiN, hw => by
      rw [layerLoop]
      by_cases hguard : curMV.getD i 0 = -1
      · rw [if_pos hguard]
        obtain ⟨p, hp, hpv⟩ := hw
        rcases List.mem_cons.mp hp with rfl | hp'
        · exact absurd hguard hpv
        · exact layerLoop_nonvac tokLen curLocs curMV nl hnn rest iNext st
            (fun q hq => hitems q (List.mem_cons_of_mem _ hq)) hst hiN ⟨p, hp', hpv⟩
      · rw [if_neg hguard]
        have hi : i < curLocs.length := hitems (i, loc) (List.mem_cons_self _ _)
        have h0 : 0 ≤ curMV.getD i 0 := hnn i hguard
        have hlt : advanceINext nl loc iNext < nl.length := advanceINext_lt loc hiN
        have hst1 := proximityUpdate_inv (advanceINext nl loc iNext) hi hguard hst
        have hst2 := proximityUpdate_inv (advanceINext nl loc iNext + 1) hi hguard hst1
        have hset : (proximityUpdate tokLen curLocs curMV nl st i
            (advanceINext nl loc iNext)).1.getD (advanceINext nl loc iNext) 0 ≠ -1 :=
          proximityUpdate_sets h0 hlt hst.1
        have hkeep : (proximityUpdate tokLen curLocs curMV nl
            (proximityUpdate tokLen curLocs curMV nl st i (advanceINext nl loc iNext)) i
            (advanceINext nl loc iNext + 1)).1.getD (advanceINext nl loc iNext) 0 ≠ -1 :=
          proximityUpdate_ne_neg h0 hset
        have ih := layerLoop_inv tokLen curLocs curMV nl hnn rest
          (advanceINext nl loc iNext) _
          (fun q hq => hitems q (List.mem_cons_of_mem _ hq)) hst2
        exact ⟨advanceINext nl loc iNext, hlt, ih.2 _ hkeep⟩

theorem layerStep_spec (tokLen : Int) (curLocs curMV nl : List Int)
    (hlen : curMV.length = curLocs.length)
    (hnn : ∀ fv : Nat, curMV.getD fv 0 ≠ -1 → 0 ≤ curMV.getD fv 0)
    (hvac : ∃ j, j < curLocs.length ∧ curMV.getD j 0 ≠ -1)
    (hnl : nl ≠ []) :
    LayerInv tokLen curLocs curMV nl (layerStep tokLen curLocs curMV nl) ∧
    ∃ t, t < nl.length ∧ (layerStep tokLen curLocs curMV nl).1.getD t 0 ≠ -1 := by
  have hst0 : LayerInv tokLen curLocs curMV nl
      (nl.map (fun _ => (-1 : Int)), nl.map (fun _ => (0 : Nat))) := by
    refine ⟨by simp, by simp, ?_⟩
    intro t ht hne
    exact absurd (getD_map_const nl (-1 : Int) 0 ht) hne
  have hitems : ∀ p ∈ curLocs.enum, p.1 < curLocs.length :=
    fun p hp => List.fst_lt_of_mem_enum hp
  obtain ⟨j, hj, hjv⟩ := hvac
  have hwit : ∃ p ∈ curLocs.enum, curMV.getD p.1 0 ≠ -1 := by
    refine ⟨(j, curLocs[j]), ?_, hjv⟩
    rw [← List.getElem_enum curLocs j (by simpa using hj)]
    exact List.getElem_mem _
  have h0 : 0 < nl.length := List.length_pos.mpr hnl
  unfold layerStep
  exact ⟨(layerLoop_inv tokLen curLocs curMV nl hnn curLocs.enum 0 _ hitems hst0).1,
    layerLoop_nonvac tokLen curLocs curMV nl hnn curLocs.enum 0 _ hitems hst0 h0 hwit⟩

theorem reconstructLoop_length (locAt : Nat → List Int) (path : List (List Nat)) :
    ∀ (i cursor : Nat), (reconstructLoop locAt path cursor i).length = i + 1
  | 0, _ => rfl
  | i + 1, cursor => by
      rw [reconstructLoop]
      simp [reconstructLoop_length locAt path i]

theorem reconstructLoop_append (locAt : Nat → List Int) (path more : List (List Nat)) :
    ∀ (i cursor : Nat), i ≤ path.length →
      reconstructLoop locAt (path ++ more) cursor i =
        reconstructLoop locAt path cursor i
  | 0, _, _ => rfl
  | i + 1, cursor, h => by
      rw [reconstructLoop, reconstructLoop]
      rw [List.getD_append _ _ _ _ (by omega)]
      rw [reconstructLoop_append locAt path more i _ (by omega)]

theorem reconstructLoop_last (locAt : Nat → List Int) (path : List (List Nat)) :
    ∀ (i cursor : Nat),
      (reconstructLoop locAt path cursor i).getD i 0 = (locAt i).getD cursor 0
  | 0, _ => rfl
  | i + 1, cursor => by
      rw [reconstructLoop]
      rw [List.getD_append_right _ _ _ _ (by rw [reconstructLoop_length])]
      rw [reconstructLoop_length]
      simp

theorem pathCost_cons (tl : List Int) (z : Int) (l : List Int) (h : l ≠ []) :
    pathCost tl (z :: l) =
      AbsInt (l.headD 0 - z - tl.headD 0) + pathCost tl.tail l := by
  cases l with
  | nil => exact absurd rfl h
  | cons w ws => rfl

theorem headD_eq_getD {α : Type} (l : List α) (d : α) : l.headD d = l.getD 0 d := by
  cases l <;> rfl

theorem getD_tail {α : Type} (l : List α) (n : Nat) (d : α) :
    l.tail.getD n d = l.getD (n + 1) d := by
  cases l <;> rfl

theorem pathCost_snoc (y : Int) :
    ∀ (l : List Int) (tl : List Int), l ≠ [] →
      pathCost tl (l ++ [y]) = pathCost tl l +
        AbsInt (y - l.getD (l.length - 1) 0 - tl.getD (l.length - 1) 0)
  | [], _, h => absurd rfl h
  | [z], tl, _ => by
      show pathCost tl [z, y] = _
      rw [pathCost_cons tl z [y] (by simp)]
      simp only [pathCost, List.headD_cons, List.length_cons, List.length_nil,
        Nat.add_sub_cancel, List.getD_cons_zero]
      rw [headD_eq_getD]
      omega
  | z :: w :: ws, tl, _ => by
      have h1 : (w :: ws) ++ [y] ≠ [] := by simp
      rw [show (z :: w :: ws) ++ [y] = z :: ((w :: ws) ++ [y]) from rfl]
      rw [pathCost_cons tl z ((w :: ws) ++ [y]) h1]
      rw [pathCost_snoc y (w :: ws) tl.tail (by simp)]
      rw [pathCost_cons tl z (w :: ws) (by simp)]
      have hh : ((w :: ws) ++ [y]).headD 0 = w := rfl
      rw [hh]
      simp only [List.headD_cons, List.length_cons, Nat.add_sub_cancel]
      rw [List.getD_cons_succ, getD_tail]
      omega

theorem tokenByteLens_getD (tokens : List String) {k : Nat} (h : k < tokens.length) :
    (tokenByteLens tokens).getD k 0 = ((tokens.getD k "").utf8ByteSize : Int) := by
  unfold tokenByteLens
  rw [List.getD_eq_getElem _ _ (by simpa using h), List.getElem_map,
    List.getD_eq_getElem _ _ h]

theorem minFoldGo_spec (mv : List Int) (g : Int × Nat → Nat × Int → Int × Nat)
    (hg : ∀ a iv, g a iv = if iv.2 = -1 then a
      else if a.1 = -1 ∨ iv.2 < a.1 then (iv.2, iv.1) else a) :
    ∀ (items : List (Nat × Int)) (acc : Int × Nat),
      (∀ iv ∈ items, iv.1 < mv.length ∧ mv.getD iv.1 0 = iv.2) →
      (acc.1 ≠ -1 → acc.2 < mv.length ∧ mv.getD acc.2 0 = acc.1) →
      ((List.foldl g acc items).1 ≠ -1 →
        (List.foldl g acc items).2 < mv.length ∧
        mv.getD (List.foldl g acc items).2 0 = (List.foldl g acc items).1) ∧
      ((acc.1 ≠ -1 ∨ ∃ iv ∈ items, iv.2 ≠ -1) → (List.foldl g acc items).1 ≠ -1)
  | [], acc, _, hacc => by
      refine ⟨hacc, ?_⟩
      rintro (h | ⟨iv, hmem, _⟩)
      · exact h
      · exact absurd hmem (List.not_mem_nil _)
  | iv₀ :: rest, acc, hitems, hacc => by
      rw [List.foldl_cons, hg]
      by_cases hv : iv₀.2 = -1
      · rw [if_pos hv]
        have ih := minFoldGo_spec mv g hg rest acc
          (fun iv h => hitems iv (List.mem_cons_of_mem _ h)) hacc
        refine ⟨ih.1, ?_⟩
        rintro (h | ⟨iv, hmem, hnev⟩)
        · exact ih.2 (Or.inl h)
        · rcases List.mem_cons.mp hmem with rfl | hmem'
          · exact absurd hv hnev
          · exact ih.2 (Or.inr ⟨iv, hmem', hnev⟩)
      · rw [if_neg hv]
        have hgood : (if acc.1 = -1 ∨ iv₀.2 < acc.1 then (iv₀.2, iv₀.1) else acc).1 ≠ -1 ∧
            ((if acc.1 = -1 ∨ iv₀.2 < acc.1 then (iv₀.2, iv₀.1) else acc).2 < mv.length ∧
             mv.getD (if acc.1 = -1 ∨ iv₀.2 < acc.1 then (iv₀.2, iv₀.1) else acc).2 0 =
               (if acc.1 = -1 ∨ iv₀.2 < acc.1 then (iv₀.2, iv₀.1) else acc).1) := by
          have hiv := hitems iv₀ (List.mem_cons_self _ _)
          split
          · exact ⟨hv, hiv.1, hiv.2⟩
          · next hcond =>
              push_neg at hcond
              exact ⟨hcond.1, hacc hcond.1⟩
        have ih := minFoldGo_spec mv g hg rest _
          (fun iv h => hitems iv (List.mem_cons_of_mem _ h)) (fun _ => hgood.2)
        exact ⟨ih.1, fun _ => ih.2 (Or.inl hgood.1)⟩

theorem proximityMinFold_spec (mv : List Int)
    (hvac : ∃ j, j < mv.length ∧ mv.getD j 0 ≠ -1) :
    (proximityMinFold mv).2 < mv.length ∧
    mv.getD (proximityMinFold mv).2 0 = (proximityMinFold mv).1 ∧
    (proximityMinFold mv).1 ≠ -1 := by
  obtain ⟨j, hj, hjv⟩ := hvac
  have hwit : ∃ iv ∈ mv.enum, iv.2 ≠ -1 := by
    refine ⟨(j, mv[j]), ?_, ?_⟩
    · rw [← List.getElem_enum mv j (by simpa using hj)]
      exact List.getElem_mem _
    · show mv[j] ≠ -1
      rwa [List.getD_eq_getElem mv 0 hj] at hjv
  have hitems : ∀ iv ∈ mv.enum, iv.1 < mv.length ∧ mv.getD iv.1 0 = iv.2 := by
    intro iv hiv
    have h1 : iv.1 < mv.length := List.fst_lt_of_mem_enum hiv
    have h2 : mv[iv.1]? = some iv.2 := List.mem_enum_iff_getElem?.mp hiv
    refine ⟨h1, ?_⟩
    rw [List.getD_eq_getElem?_getD, h2]
    rfl
  have hspec := minFoldGo_spec mv
    (fun acc iv => if iv.2 = -1 then acc
      else if acc.1 = -1 ∨ iv.2 < acc.1 then (iv.2, iv.1) else acc)
    (fun _ _ => rfl) mv.enum (-1, 0) hitems (fun h => absurd rfl h)
  have hne := hspec.2 (Or.inr hwit)
  unfold proximityMinFold
  exact ⟨(hspec.1 hne).1, (hspec.1 hne).2, hne⟩

theorem dpInv_base (table : List KeywordIndices) (ptrs : List Nat)
    (tokens : List String) (h0 : tokenLocs table ptrs 0 ≠ []) :
    DPInv (tokenLocs table ptrs) (tokenByteLens tokens) 0
      (tokenLocs table ptrs 0,
       (tokenLocs table ptrs 0).map (fun _ => (0 : Int)), []) := by
  have hpos : 0 < (tokenLocs table ptrs 0).length := List.length_pos.mpr h0
  refine ⟨rfl, by simp, rfl, ⟨0, hpos, ?_⟩, ?_⟩
  · rw [getD_map_const _ _ _ hpos]
    decide
  · intro j hj hne
    rw [getD_map_const _ _ _ hj]
    refine ⟨le_refl 0, rfl, ?_, rfl⟩
    intro i hi
    have hi0 : i = 0 := Nat.le_zero.mp hi
    subst hi0
    show ((tokenLocs table ptrs 0).getD j 0) ∈ tokenLocs table ptrs 0
    exact getD_mem_of_lt 0 hj

theorem dpFold_inv (table : List KeywordIndices) (ptrs : List Nat)
    (tokens : List String)
    (hne : ∀ i, i < tokens.length → tokenLocs table ptrs i ≠ []) :
    ∀ (m k : Nat) (st : List Int × List Int × List (List Nat)),
      k + m < tokens.length →
      DPInv (tokenLocs table ptrs) (tokenByteLens tokens) k st →
      DPInv (tokenLocs table ptrs) (tokenByteLens tokens) (k + m)
        ((List.range' (k + 1) m).foldl
          (fun (st : List Int × List Int × List (List Nat)) i =>
            let nextLocations := tokenLocs table ptrs i
            let tokLen : Int := ((tokens.getD (i - 1) "").utf8ByteSize : Int)
            let nr := layerStep tokLen st.1 st.2.1 nextLocations
            (nextLocations, nr.1, st.2.2 ++ [nr.2]))
          st)
  | 0, k, st, _, hst => hst
  | m + 1, k, st, hk, hst => by
      obtain ⟨cl, mv, pth⟩ := st
      obtain ⟨e1, e2, e3, e4, e5⟩ := hst
      dsimp only at e1 e2 e3 e4 e5
      subst e1
      rw [List.range'_succ, List.foldl_cons]
      have hk1 : k + 1 < tokens.length := by omega
      have hnl : tokenLocs table ptrs (k + 1) ≠ [] := hne (k + 1) hk1
      have hnn : ∀ fv : Nat, mv.getD fv 0 ≠ -1 → 0 ≤ mv.getD fv 0 := by
        intro fv hfv
        by_cases hlt : fv < (tokenLocs table ptrs k).length
        · exact (e5 fv hlt hfv).1
        · rw [List.getD_eq_default _ _ (by omega)]
      have hls := layerStep_spec ((tokens.getD k "").utf8ByteSize : Int)
        (tokenLocs table ptrs k) mv (tokenLocs table ptrs (k + 1))
        e2 hnn e4 hnl
      have hst' : DPInv (tokenLocs table ptrs) (tokenByteLens tokens) (k + 1)
          (tokenLocs table ptrs (k + 1),
           (layerStep ((tokens.getD k "").utf8ByteSize : Int) (tokenLocs table ptrs k)
             mv (tokenLocs table ptrs (k + 1))).1,
           pth ++ [(layerStep ((tokens.getD k "").utf8ByteSize : Int)
             (tokenLocs table ptrs k) mv (tokenLocs table ptrs (k + 1))).2]) := by
        obtain ⟨l1, l2, l3⟩ := hls.1
        unfold DPInv
        dsimp only
        refine ⟨rfl, l1, by simp [e3], ?_, ?_⟩
        · obtain ⟨t, ht1, ht2⟩ := hls.2
          exact ⟨t, ht1, ht2⟩
        · intro j hj hnej
          obtain ⟨f, hf1, hf2, hf3, hf4⟩ := l3 j hj hnej
          obtain ⟨p1, p2, p3, p4⟩ := e5 f hf1 hf2
          have hreclen : (reconstructLoop (tokenLocs table ptrs) pth f k).length
              = k + 1 := p2
          have hcursor : ((pth ++ [(layerStep
              ((tokens.getD k "").utf8ByteSize : Int) (tokenLocs table ptrs k)
              mv (tokenLocs table ptrs (k + 1))).2]).getD k []).getD j 0 = f := by
            rw [List.getD_append_right _ _ _ _ (by omega)]
            rw [e3]
            simp only [Nat.sub_self, List.getD_cons_zero]
            exact hf3
          have hrec : reconstructLoop (tokenLocs table ptrs)
              (pth ++ [(layerStep ((tokens.getD k "").utf8ByteSize : Int)
                (tokenLocs table ptrs k) mv
                (tokenLocs table ptrs (k + 1))).2]) j (k + 1) =
              reconstructLoop (tokenLocs table ptrs) pth f k ++
                [(tokenLocs table ptrs (k + 1)).getD j 0] := by
            rw [reconstructLoop]
            rw [hcursor]
            rw [reconstructLoop_append _ _ _ _ _ (by omega)]
          rw [hrec]
          have habs := AbsInt_nonneg ((tokenLocs table ptrs (k + 1)).getD j 0 -
            (tokenLocs table ptrs k).getD f 0 - ((tokens.getD k "").utf8ByteSize : Int))
          refine ⟨by omega, by simp [hreclen], ?_, ?_⟩
          · intro i hi
            by_cases hik : i ≤ k
            · rw [List.getD_append _ _ _ _ (by omega)]
              exact p3 i hik
            · have hik1 : i = k + 1 := by omega
              subst hik1
              rw [List.getD_append_right _ _ _ _ (by omega), hreclen]
              simp only [Nat.sub_self, List.getD_cons_zero]
              exact getD_mem_of_lt 0 hj
          · rw [pathCost_snoc _ _ _ (by rw [← List.length_pos, hreclen]; omega)]
            rw [hreclen]
            simp only [Nat.add_sub_cancel]
            rw [reconstructLoop_last, p4]
            rw [tokenByteLens_getD tokens (by omega)]
            omega
      have ih := dpFold_inv table ptrs tokens hne m (k + 1) _ (by omega) hst'
      have harith : k + 1 + m = k + (m + 1) := by omega
      rw [harith] at ih
      exact ih

theorem dpState_inv (table : List KeywordIndices) (ptrs : List Nat)
    (tokens : List String) (hn : tokens ≠ [])
    (hne : ∀ i, i < tokens.length → tokenLocs table ptrs i ≠ []) :
    DPInv (tokenLocs table ptrs) (tokenByteLens tokens) (tokens.length - 1)
      (dpState table ptrs tokens) := by
  have hn0 : tokens.length ≠ 0 := fun h => hn (List.length_eq_zero.mp h)
  have h0 : tokenLocs table ptrs 0 ≠ [] := hne 0 (by omega)
  have hbase := dpInv_base table ptrs tokens h0
  have hfold := dpFold_inv table ptrs tokens hne (tokens.length - 1) 0
    (tokenLocs table ptrs 0,
     (tokenLocs table ptrs 0).map (fun _ => (0 : Int)), [])
    (by omega) hbase
  unfold dpState
  simpa using hfold

theorem computeTokenProximity_eq (table : List KeywordIndices) (ptrs : List Nat)
    (tokens : List String) :
    computeTokenProximity table ptrs tokens =
      ((proximityMinFold (dpState table ptrs tokens).2.1).1,
       if tokens.length = 0 then []
       else reconstructLoop (tokenLocs table ptrs) (dpState table ptrs tokens).2.2
         (proximityMinFold (dpState table ptrs tokens).2.1).2
         (tokens.length - 1)) := rfl

theorem computeTokenProximity_spec (table : List KeywordIndices) (ptrs : List Nat)
    (tokens : List String) (hn : tokens ≠ [])
    (hne : ∀ i, i < tokens.length → tokenLocs table ptrs i ≠ []) :
    (computeTokenProximity table ptrs tokens).2.length = tokens.length ∧
    (∀ i, i < tokens.length →
      (computeTokenProximity table ptrs tokens).2.getD i 0 ∈ tokenLocs table ptrs i) ∧
    (computeTokenProximity table ptrs tokens).1 =
      pathCost (tokenByteLens tokens) (computeTokenProximity table ptrs tokens).2 ∧
    0 ≤ (computeTokenProximity table ptrs tokens).1 := by
  have hn0 : tokens.length ≠ 0 := fun h => hn (List.length_eq_zero.mp h)
  have hdp := dpState_inv table ptrs tokens hn hne
  obtain ⟨e1, e2, e3, e4, e5⟩ := hdp
  have hvac2 : ∃ j, j < (dpState table ptrs tokens).2.1.length ∧
      (dpState table ptrs tokens).2.1.getD j 0 ≠ -1 := by
    obtain ⟨j, hj, hjv⟩ := e4
    exact ⟨j, by rw [e2]; exact hj, hjv⟩
  have hmf := proximityMinFold_spec _ hvac2
  have hj : (proximityMinFold (dpState table ptrs tokens).2.1).2 <
      (tokenLocs table ptrs (tokens.length - 1)).length := by
    have := hmf.1
    rwa [e2] at this
  have hnej : (dpState table ptrs tokens).2.1.getD
      (proximityMinFold (dpState table ptrs tokens).2.1).2 0 ≠ -1 := by
    rw [hmf.2.1]
    exact hmf.2.2
  obtain ⟨q1, q2, q3, q4⟩ := e5 _ hj hnej
  rw [computeTokenProximity_eq, if_neg hn0]
  dsimp only
  refine ⟨?_, ?_, ?_, ?_⟩
  · rw [q2]
    omega
  · intro i hi
    exact q3 i (by omega)
  · rw [q4, hmf.2.1]
  · rw [← hmf.2.1]
    exact q1

theorem mem_selections :
    ∀ (ls : List (List Int)) (xs : List Int), xs.length = ls.length →
      (∀ i, i < ls.length → xs.getD i 0 ∈ ls.getD i []) →
      xs ∈ selections ls
  | [], xs, hlen, _ => by
      have : xs = [] := List.length_eq_zero.mp (by simpa using hlen)
      subst this
      simp [selections]
  | L :: Ls, xs, hlen, hmem => by
      cases xs with
      | nil => simp at hlen
      | cons x xs' =>
          have hx : x ∈ L := by
            have := hmem 0 (by simp)
            simpa using this
          have hxs' : xs' ∈ selections Ls := by
            refine mem_selections Ls xs' (by simpa using hlen) ?_
            intro i hi
            have := hmem (i + 1) (by simpa using hi)
            simpa using this
          simp only [selections]
          exact List.mem_flatMap.mpr ⟨x, hx, List.mem_map.mpr ⟨xs', hxs', rfl⟩⟩

theorem int_min?_le {l : List Int} {a b : Int} (h : l.min? = some a) (hb : b ∈ l) :
    a ≤ b := by
  haveI : Std.Antisymm ((· : Int) ≤ ·) := ⟨fun h1 h2 => le_antisymm h1 h2⟩
  exact ((List.min?_eq_some_iff (fun x => le_refl x) (fun x y => min_choice x y)
    (fun _ _ _ => le_min_iff)).mp h).2 b hb

/-- C4 (counterexample to the claim as stated): on the location arrays
`L_0 = [0]`, `L_1 = [1, 2, 11]` (both non-empty and ascending) with first
token byte length 10, the DP of `computeTokenProximity` only relaxes the two
positions adjacent to the current location, so it returns proximity `8`
(choosing positions `[0, 2]`), while the true minimum over all selections is
`1` (choosing `[0, 11]`): the returned value is not the minimum. -/
theorem C4_counterexample :
    (∀ L ∈ [[(0 : Int)], [1, 2, 11]], L ≠ [] ∧ List.Pairwise (· < ·) L) ∧
    tokenLocs [⟨[1], [], [[0]]⟩, ⟨[1], [], [[1, 2, 11]]⟩] [0, 0] 0 = [0] ∧
    tokenLocs [⟨[1], [], [[0]]⟩, ⟨[1], [], [[1, 2, 11]]⟩] [0, 0] 1 = [1, 2, 11] ∧
    computeTokenProximity [⟨[1], [], [[0]]⟩, ⟨[1], [], [[1, 2, 11]]⟩] [0, 0]
      ["aaaaaaaaaa", "b"] = (8, [0, 2]) ∧
    specMinProximity (tokenByteLens ["aaaaaaaaaa", "b"]) [[0], [1, 2, 11]] =
      some 1 ∧
    ¬ ((8 : Int) ≤ 1) := by decide

/-- C4 (amended): for every family of non-empty location arrays and any token
list, `computeTokenProximity` returns the positions of one valid selection
(one location per array, in order) together with that selection's exact cost
`Σ |x_(i+1) − x_i − tokLens_i|`; the spec-side minimum over all selections is
therefore a lower bound of the returned proximity, but (by the
counterexample) the returned proximity need not attain it. -/
theorem C4_amended_proximity (table : List KeywordIndices) (ptrs : List Nat)
    (tokens : List String) (hn : tokens ≠ [])
    (hne : ∀ i, i < tokens.length → tokenLocs table ptrs i ≠ []) :
    (computeTokenProximity table ptrs tokens).2.length = tokens.length ∧
    (computeTokenProximity table ptrs tokens).2 ∈
      selections ((List.range tokens.length).map (tokenLocs table ptrs)) ∧
    (computeTokenProximity table ptrs tokens).1 =
      pathCost (tokenByteLens tokens) (computeTokenProximity table ptrs tokens).2 ∧
    ∀ m, specMinProximity (tokenByteLens tokens)
        ((List.range tokens.length).map (tokenLocs table ptrs)) = some m →
      m ≤ (computeTokenProximity table ptrs tokens).1 := by
  obtain ⟨s1, s2, s3, _⟩ := computeTokenProximity_spec table ptrs tokens hn hne
  have hgd : ∀ i, i < tokens.length →
      ((List.range tokens.length).map (tokenLocs table ptrs)).getD i [] =
        tokenLocs table ptrs i := by
    intro i hi
    rw [List.getD_eq_getElem _ _ (by simpa using hi)]
    simp
  have hsel : (computeTokenProximity table ptrs tokens).2 ∈
      selections ((List.range tokens.length).map (tokenLocs table ptrs)) := by
    refine mem_selections _ _ (by simp [s1]) ?_
    intro i hi
    have hi' : i < tokens.length := by simpa using hi
    rw [hgd i hi']
    exact s2 i hi'
  refine ⟨s1, hsel, s3, ?_⟩
  intro m hm
  have hmem : pathCost (tokenByteLens tokens)
      (computeTokenProximity table ptrs tokens).2 ∈
      (selections ((List.range tokens.length).map (tokenLocs table ptrs))).map
        (pathCost (tokenByteLens tokens)) :=
    List.mem_map.mpr ⟨_, hsel, rfl⟩
  have := int_min?_le hm hmem
  rw [s3]
  exact this

theorem C4_amended_proximity_witness :
    (computeTokenProximity [⟨[1], [], [[0]]⟩, ⟨[1], [], [[2]]⟩] [0, 0]
      ["a", "b"]).2.length = (["a", "b"] : List String).length ∧
    (computeTokenProximity [⟨[1], [], [[0]]⟩, ⟨[1], [], [[2]]⟩] [0, 0]
      ["a", "b"]).2 ∈
      selections ((List.range (["a", "b"] : List String).length).map
        (tokenLocs [⟨[1], [], [[0]]⟩, ⟨[1], [], [[2]]⟩] [0, 0])) ∧
    (computeTokenProximity [⟨[1], [], [[0]]⟩, ⟨[1], [], [[2]]⟩] [0, 0]
      ["a", "b"]).1 =
      pathCost (tokenByteLens ["a", "b"])
        (computeTokenProximity [⟨[1], [], [[0]]⟩, ⟨[1], [], [[2]]⟩] [0, 0]
          ["a", "b"]).2 ∧
    ∀ m, specMinProximity (tokenByteLens ["a", "b"])
        ((List.range (["a", "b"] : List String).length).map
          (tokenLocs [⟨[1], [], [[0]]⟩, ⟨[1], [], [[2]]⟩] [0, 0])) = some m →
      m ≤ (computeTokenProximity [⟨[1], [], [[0]]⟩, ⟨[1], [], [[2]]⟩] [0, 0]
        ["a", "b"]).1 :=
  C4_amended_proximity [⟨[1], [], [[0]]⟩, ⟨[1], [], [[2]]⟩] [0, 0] ["a", "b"]
    (by decide)
    (fun i hi => by
      have h2 : i = 0 ∨ i = 1 := by
        simp only [List.length_cons, List.length_nil] at hi
        omega
      rcases h2 with rfl | rfl <;> decide)

/-- C7: `computeTokenProximity` is a pure function of its arguments, so two
runs on equal inputs return equal proximity and positions; and on every
family of non-empty location arrays every reconstructed snippet position is
a member of its token's location array: `x_i ∈ L_i` for every `i`. -/
theorem C7_proximity_deterministic_members (table : List KeywordIndices)
    (ptrs : List Nat) (tokens : List String) (hn : tokens ≠ [])
    (hne : ∀ i, i < tokens.length → tokenLocs table ptrs i ≠ []) :
    computeTokenProximity table ptrs tokens =
      computeTokenProximity table ptrs tokens ∧
    ∀ i, i < tokens.length →
      (computeTokenProximity table ptrs tokens).2.getD i 0 ∈
        tokenLocs table ptrs i :=
  ⟨rfl, (computeTokenProximity_spec table ptrs tokens hn hne).2.1⟩

theorem C7_proximity_deterministic_members_witness :
    (computeTokenProximity [⟨[1], [], [[3]]⟩, ⟨[1], [], [[5, 7]]⟩] [0, 0]
      ["ab", "c"] =
      computeTokenProximity [⟨[1], [], [[3]]⟩, ⟨[1], [], [[5, 7]]⟩] [0, 0]
        ["ab", "c"]) ∧
    ∀ i, i < (["ab", "c"] : List String).length →
      (computeTokenProximity [⟨[1], [], [[3]]⟩, ⟨[1], [], [[5, 7]]⟩] [0, 0]
        ["ab", "c"]).2.getD i 0 ∈
        tokenLocs [⟨[1], [], [[3]]⟩, ⟨[1], [], [[5, 7]]⟩] [0, 0] i :=
  C7_proximity_deterministic_members [⟨[1], [], [[3]]⟩, ⟨[1], [], [[5, 7]]⟩]
    [0, 0] ["ab", "c"] (by decide)
    (fun i hi => by
      have h2 : i = 0 ∨ i = 1 := by
        simp only [List.length_cons, List.length_nil] at hi
        omega
      rcases h2 with rfl | rfl <;> decide)
